import Mathlib

/-!
Verification of the gmalg GM/T cryptography library (SM2/SM3/SM9 stack).

This file shallowly embeds the Python sources (`gmalg/primefield.py`,
`gmalg/ellipticcurve.py`, `gmalg/sm2.py`, `gmalg/sm3.py`, `gmalg/sm9.py`,
`gmalg/base.py`) into Lean and proves or refutes the specification claims
about them.

Modelling conventions:
- Python arbitrary-precision integers are `Int`; Python `%` on a positive
  modulus is `Int.emod` (both produce canonical non-negative remainders).
- Byte strings are `List Nat` (one entry per byte).
- Python exceptions are an explicit error type `GMErr`; fallible code
  returns `Except GMErr _` or `Option _`.
- Python `while` loops that consume a strictly decreasing quantity are
  written with an explicit fuel argument that is always supplied large
  enough (the fuel bound is justified next to each definition), keeping
  every definition kernel-computable.
- The random source `rnd_fn` of `SMCoreBase._randint` is modelled as a
  finite list of draws; rejection sampling consumes draws from the front.
-/

/-- Error kinds corresponding to the exception classes of `gmalg/errors.py`,
plus two embedding devices: `noMoreDraws` (the modelled RNG stream ran out)
and `unknownError` (covers `UnknownError` raises and Python crashes on the
float-infinity point representation). -/
inductive GMErr where
  | checkFailed
  | dataOverflow
  | infinitePoint
  | invalidPC
  | pointNotOnCurve
  | requireArgument
  | unknownError
  | noMoreDraws
  deriving DecidableEq, Repr

/-- Bits of `n`, least significant first, via fuel (`fuel = n` suffices since
the value halves each step); `bitsLSB 0 = []`. -/
def bitsLSBAux : Nat → Nat → List Bool
  | 0, _ => []
  | fuel + 1, n => if n = 0 then [] else (n % 2 = 1) :: bitsLSBAux fuel (n / 2)

def bitsLSB (n : Nat) : List Bool :=
  bitsLSBAux n n

/-- The bit string `f"{k:b}"` of Python: most significant bit first, and the
single character `"0"` for `k = 0`. -/
def msbBitsFull (n : Nat) : List Bool :=
  if n = 0 then [false] else (bitsLSB n).reverse

/-- `f"{k:b}"[1:]`: the bits after the leading character, as consumed by the
double-and-add loops of `EllipticCurve.mul` and the `pow` methods. -/
def mulBits (n : Nat) : List Bool :=
  (msbBitsFull n).drop 1

/-- Python `int.bit_length()`. -/
def bitLen (n : Nat) : Nat :=
  (bitsLSB n).length

/-- Big-endian encoding of `n` on `L` bytes (`int.to_bytes(L, "big")`);
like Python we only use it on values that fit. -/
def natToBE : Nat → Nat → List Nat
  | 0, _ => []
  | L + 1, n => natToBE L (n / 256) ++ [n % 256]

/-- Big-endian decoding (`int.from_bytes(b, "big")`). -/
def natFromBE (l : List Nat) : Nat :=
  l.foldl (fun acc b2 => acc * 256 + b2) 0

/-- `bytes(map(lambda b1, b2: b1 ^ b2, X, Y))`: pointwise XOR, truncated to
the shorter argument exactly as Python `map` over two iterables is. -/
def xorBytes (x y : List Nat) : List Nat :=
  List.zipWith (fun b1 b2 => b1 ^^^ b2) x y

/-- Python `any(t)` on a byte string: some byte is nonzero. -/
def anyByte (t : List Nat) : Bool :=
  t.any (fun b2 => b2 != 0)

namespace PrimeField

/-- `PrimeField.add`. -/
def add (p : Nat) (x y : Int) : Int :=
  (x + y) % (p : Int)

/-- `PrimeField.sub`. -/
def sub (p : Nat) (x y : Int) : Int :=
  (x - y) % (p : Int)

/-- `PrimeField.mul` (also `pmul`, which is identical on `Fp`). -/
def mul (p : Nat) (x y : Int) : Int :=
  (x * y) % (p : Int)

/-- `PrimeField.neg`. -/
def neg (p : Nat) (x : Int) : Int :=
  (-x) % (p : Int)

/-- `PrimeField.sadd`. -/
def sadd (p : Nat) (n : Int) (x : Int) : Int :=
  (n + x) % (p : Int)

/-- `PrimeField.smul`. -/
def smul (p : Nat) (k : Int) (x : Int) : Int :=
  (k * x) % (p : Int)

/-- `PrimeField.pow`: Python `pow(x, e, p)` for a non-negative exponent. -/
def pow (p : Nat) (x : Int) (e : Nat) : Int :=
  (x ^ e) % (p : Int)

/-- `PrimeField.isoppo`. -/
def isoppo (p : Nat) (x y : Int) : Bool :=
  (x == 0 && y == 0) || (x + y == (p : Int))

/-- `PrimeField.iszero`. -/
def iszero (x : Int) : Bool :=
  x == 0

/-- The extended-Euclid loop of `PrimeField.inv`.  The second remainder `r2`
strictly decreases through `r1 % r2`, so fuel `r2.toNat + 1` suffices to run
the Python `while r2 > 0` loop to completion. -/
def invLoop : Nat → Int → Int → Int → Int → Int
  | 0, _, _, t1, _ => t1
  | fuel + 1, r1, r2, t1, t2 =>
    if r2 > 0 then invLoop fuel r2 (r1 % r2) t2 (t1 - r1 / r2 * t2) else t1

/-- `PrimeField.inv`: Bézout coefficient of `x` against `p`, reduced mod `p`. -/
def inv (p : Nat) (x : Int) : Int :=
  invLoop (x.toNat + 1) (p : Int) x 0 1 % (p : Int)

/-- `PrimeField._lucas`: the `k`-th Lucas pair `(U_k, V_k)` for parameters
`(X, Y)`, computed by the binary ladder over all characters of `f"{k:b}"`. -/
def lucas (p : Nat) (X Y : Int) (k : Nat) : Int × Int :=
  let pz : Int := (p : Int)
  let delta : Int := (X * X - 4 * Y) % pz
  let inv2 : Int := inv p 2
  (msbBitsFull k).foldl
    (fun (UV : Int × Int) (i : Bool) =>
      let U' := UV.1 * UV.2 % pz
      let V' := (UV.2 * UV.2 + delta * UV.1 * UV.1) * inv2 % pz
      if i then ((X * U' + V') * inv2 % pz, (X * V' + delta * U') * inv2 % pz)
      else (U', V'))
    (0, 2)

/-- `PrimeField._sqrt_4u3` (the `p % 8 ∈ {3, 7}` branch, with the branch's
value of `u` supplied by the caller as in `__init__`). -/
def sqrt4u3 (p : Nat) (u : Nat) (x : Int) : Option Int :=
  let y := pow p x (u + 1)
  if y * y % (p : Int) = x then some y else none

/-- `PrimeField._sqrt_8u5`. -/
def sqrt8u5 (p : Nat) (u : Nat) (x : Int) : Option Int :=
  let z := pow p x (2 * u + 1)
  if z = 1 then some (pow p x (u + 1))
  else if z = (p : Int) - 1 then some (2 * x * pow p (4 * x) u % (p : Int))
  else none

/-- The `for X in range(1, p)` loop of `PrimeField._sqrt_8u1`, with fuel `p`
(one unit per candidate `X`).  The early-return condition
`if U != 1 or U != p_1: return None` is transcribed verbatim. -/
def sqrt8u1Loop (p : Nat) (Y : Int) (k4u1 : Nat) (inv2 : Int) : Nat → Nat → Option Int
  | 0, _ => none
  | fuel + 1, X =>
    if X < p then
      let UV := lucas p (X : Int) Y k4u1
      if (UV.2 * UV.2 - 4 * Y) % (p : Int) = 0 then
        some (UV.2 * inv2 % (p : Int))
      else if UV.1 ≠ 1 ∨ UV.1 ≠ (p : Int) - 1 then
        none
      else
        sqrt8u1Loop p Y k4u1 inv2 fuel (X + 1)
    else none

/-- `PrimeField._sqrt_8u1` (the Lucas-sequence branch for `p % 8 = 1`). -/
def sqrt8u1 (p : Nat) (u : Nat) (x : Int) : Option Int :=
  sqrt8u1Loop p x (4 * u + 1) (inv p 2) p 1

/-- `PrimeField.sqrt`: the four-way dispatch on `p % 8` set up in
`PrimeField.__init__`, including the per-branch adjustment of `self._u`
(`u*2` for `p % 8 = 3`, `u*2 + 1` for `p % 8 = 7`).  For any other residue
`__init__` raises `InvalidArgumentError`; no claim exercises that path, and
we return `none` there. -/
def sqrt (p : Nat) (x : Int) : Option Int :=
  let u := p / 8
  let r := p % 8
  if r = 1 then sqrt8u1 p u x
  else if r = 3 then sqrt4u3 p (u * 2) x
  else if r = 5 then sqrt8u5 p u x
  else if r = 7 then sqrt4u3 p (u * 2 + 1) x
  else none

/-- `p_length = (p.bit_length() + 7) >> 3`, also `e_length` of `PrimeField`. -/
def pLength (p : Nat) : Nat :=
  (bitLen p + 7) / 8

/-- `PrimeField.etob`: big-endian, `e_length` bytes. -/
def etob (p : Nat) (e : Int) : List Nat :=
  natToBE (pLength p) e.toNat

/-- `PrimeField.btoe`. -/
def btoe (l : List Nat) : Int :=
  (natFromBE l : Int)

end PrimeField

/-! Tower extension fields, `gmalg/primefield.py`.  An `Fp2Ele` `(x₁, x₀)` is
an `Int × Int` (most significant component first, as in the source), and so
on up the 1-2-4-12 tower. -/

def Fp2Ele : Type := Int × Int

def Fp4Ele : Type := Fp2Ele × Fp2Ele

def Fp12Ele : Type := Fp4Ele × Fp4Ele × Fp4Ele

namespace PrimeField2

/-- `PrimeField2._ALPHA = -2`. -/
def alpha : Int := -2

def zero : Fp2Ele := (0, 0)

def one : Fp2Ele := (0, 1)

def add (p : Nat) (X Y : Fp2Ele) : Fp2Ele :=
  (PrimeField.add p X.1 Y.1, PrimeField.add p X.2 Y.2)

def sub (p : Nat) (X Y : Fp2Ele) : Fp2Ele :=
  (PrimeField.sub p X.1 Y.1, PrimeField.sub p X.2 Y.2)

def neg (p : Nat) (X : Fp2Ele) : Fp2Ele :=
  (PrimeField.neg p X.1, PrimeField.neg p X.2)

/-- `PrimeField2.mul`: the Karatsuba-style three-product scheme. -/
def mul (p : Nat) (X Y : Fp2Ele) : Fp2Ele :=
  let x1my1 := PrimeField.mul p X.1 Y.1
  let x0my0 := PrimeField.mul p X.2 Y.2
  let t := PrimeField.mul p (PrimeField.add p X.1 X.2) (PrimeField.add p Y.1 Y.2)
  (PrimeField.sub p t (PrimeField.add p x1my1 x0my0),
   PrimeField.add p (PrimeField.mul p alpha x1my1) x0my0)

/-- `PrimeField2.inv`: explicit quadratic-extension inverse. -/
def inv (p : Nat) (X : Fp2Ele) : Fp2Ele :=
  let det := PrimeField.sub p (PrimeField.mul p alpha (PrimeField.mul p X.1 X.1))
    (PrimeField.mul p X.2 X.2)
  let invdet := PrimeField.inv p det
  (PrimeField.mul p X.1 invdet, PrimeField.mul p (PrimeField.neg p X.2) invdet)

/-- `PrimeField2.pow`: square-and-multiply over `f"{e:b}"[1:]`, starting from
`Y = X` (so `pow X 0 = X`, exactly as the source). -/
def pow (p : Nat) (X : Fp2Ele) (e : Nat) : Fp2Ele :=
  (mulBits e).foldl (fun Y i => if i then mul p (mul p Y Y) X else mul p Y Y) X

end PrimeField2

namespace PrimeField4

/-- `PrimeField4._ALPHA = (1, 0)`. -/
def alpha : Fp2Ele := (1, 0)

def zero : Fp4Ele := (PrimeField2.zero, PrimeField2.zero)

def one : Fp4Ele := (PrimeField2.zero, PrimeField2.one)

def add (p : Nat) (X Y : Fp4Ele) : Fp4Ele :=
  (PrimeField2.add p X.1 Y.1, PrimeField2.add p X.2 Y.2)

def sub (p : Nat) (X Y : Fp4Ele) : Fp4Ele :=
  (PrimeField2.sub p X.1 Y.1, PrimeField2.sub p X.2 Y.2)

def neg (p : Nat) (X : Fp4Ele) : Fp4Ele :=
  (PrimeField2.neg p X.1, PrimeField2.neg p X.2)

def mul (p : Nat) (X Y : Fp4Ele) : Fp4Ele :=
  let x1my1 := PrimeField2.mul p X.1 Y.1
  let x0my0 := PrimeField2.mul p X.2 Y.2
  let t := PrimeField2.mul p (PrimeField2.add p X.1 X.2) (PrimeField2.add p Y.1 Y.2)
  (PrimeField2.sub p t (PrimeField2.add p x1my1 x0my0),
   PrimeField2.add p (PrimeField2.mul p alpha x1my1) x0my0)

def inv (p : Nat) (X : Fp4Ele) : Fp4Ele :=
  let det := PrimeField2.sub p (PrimeField2.mul p alpha (PrimeField2.mul p X.1 X.1))
    (PrimeField2.mul p X.2 X.2)
  let invdet := PrimeField2.inv p det
  (PrimeField2.mul p X.1 invdet, PrimeField2.mul p (PrimeField2.neg p X.2) invdet)

def pow (p : Nat) (X : Fp4Ele) (e : Nat) : Fp4Ele :=
  (mulBits e).foldl (fun Y i => if i then mul p (mul p Y Y) X else mul p Y Y) X

end PrimeField4

namespace PrimeField12

/-- `PrimeField12._ALPHA = ((0, 1), (0, 0))`. -/
def alpha : Fp4Ele := ((0, 1), (0, 0))

def add (p : Nat) (X Y : Fp12Ele) : Fp12Ele :=
  (PrimeField4.add p X.1 Y.1, PrimeField4.add p X.2.1 Y.2.1, PrimeField4.add p X.2.2 Y.2.2)

def sub (p : Nat) (X Y : Fp12Ele) : Fp12Ele :=
  (PrimeField4.sub p X.1 Y.1, PrimeField4.sub p X.2.1 Y.2.1, PrimeField4.sub p X.2.2 Y.2.2)

def neg (p : Nat) (X : Fp12Ele) : Fp12Ele :=
  (PrimeField4.neg p X.1, PrimeField4.neg p X.2.1, PrimeField4.neg p X.2.2)

/-- `PrimeField12.mul`, transcribing the three-term Karatsuba scheme of the
source (`X = (X2, X1, X0)`, most significant first). -/
def mul (p : Nat) (X Y : Fp12Ele) : Fp12Ele :=
  let a := PrimeField4.add p
  let s := PrimeField4.sub p
  let m := PrimeField4.mul p
  let x2my2 := m X.1 Y.1
  let x1my1 := m X.2.1 Y.2.1
  let x0my0 := m X.2.2 Y.2.2
  let x2ax1_m_y2ay1 := m (a X.1 X.2.1) (a Y.1 Y.2.1)
  let x2ax0_m_y2ay0 := m (a X.1 X.2.2) (a Y.1 Y.2.2)
  let x1ax0_m_y1ay0 := m (a X.2.1 X.2.2) (a Y.2.1 Y.2.2)
  let umx2my2 := m alpha x2my2
  let x2my1_a_x1y2 := s x2ax1_m_y2ay1 (a x2my2 x1my1)
  (s (a x2ax0_m_y2ay0 x1my1) (a x2my2 x0my0),
   s (a umx2my2 x1ax0_m_y1ay0) (a x1my1 x0my0),
   a (m alpha x2my1_a_x1y2) x0my0)

/-- `PrimeField12.inv`: cubic-extension inverse via cofactors. -/
def inv (p : Nat) (X : Fp12Ele) : Fp12Ele :=
  let a := PrimeField4.add p
  let s := PrimeField4.sub p
  let m := PrimeField4.mul p
  let umx2 := m alpha X.1
  let umx1 := m alpha X.2.1
  let c2 := s (m X.2.1 X.2.1) (m X.1 X.2.2)
  let c1 := s (m umx2 X.1) (m X.2.1 X.2.2)
  let c0 := s (m X.2.2 X.2.2) (m umx2 X.2.1)
  let det := a (m umx2 c1) (a (m umx1 c2) (m X.2.2 c0))
  let invdet := PrimeField4.inv p det
  (m c2 invdet, m c1 invdet, m c0 invdet)

def pow (p : Nat) (X : Fp12Ele) (e : Nat) : Fp12Ele :=
  (mulBits e).foldl (fun Y i => if i then mul p (mul p Y Y) X else mul p Y Y) X

end PrimeField12

/-! Elliptic curve layer, `gmalg/ellipticcurve.py`.  `EllipticCurve.INF` is
the Python float pair `(inf, inf)`; we represent points as an inductive with
a distinguished infinity.  `add` raises `UnknownError` when `x₁ = x₂` but the
ordinates are neither equal nor opposite; that raise is the `none` result. -/

inductive EcPoint where
  | inf
  | aff (x y : Int)
  deriving DecidableEq, Repr

namespace EllipticCurve

/-- `EllipticCurve.get_y_sqr`. -/
def getYSqr (p : Nat) (a b : Int) (x : Int) : Int :=
  PrimeField.add p (PrimeField.pow p x 3) (PrimeField.add p (PrimeField.mul p a x) b)

/-- `EllipticCurve.isvalid`.  On the Python `INF` float pair the comparison
`fp.mul(y, y) == get_y_sqr(x)` evaluates through `nan` and is false, so
infinity is invalid. -/
def isvalid (p : Nat) (a b : Int) : EcPoint → Bool
  | .inf => false
  | .aff x y => PrimeField.mul p y y == getYSqr p a b x

/-- `EllipticCurve.get_y`: one square root of `x³ + ax + b`, if any. -/
def getY (p : Nat) (a b : Int) (x : Int) : Option Int :=
  PrimeField.sqrt p (getYSqr p a b x)

/-- `EllipticCurve.neg`. -/
def negPt (p : Nat) : EcPoint → EcPoint
  | .inf => .inf
  | .aff x y => .aff x (PrimeField.neg p y)

/-- `EllipticCurve.add`.  `none` is the `UnknownError` raise. -/
def add (p : Nat) (a : Int) : EcPoint → EcPoint → Option EcPoint
  | .inf, P2 => some P2
  | P1, .inf => some P1
  | .aff x1 y1, .aff x2 y2 =>
    if x1 = x2 then
      if PrimeField.isoppo p y1 y2 then some .inf
      else if y1 = y2 then
        let t1 := PrimeField.add p a (PrimeField.smul p 3 (PrimeField.mul p x1 x1))
        let t2 := PrimeField.inv p (PrimeField.smul p 2 y1)
        let lam := PrimeField.mul p t1 t2
        let x3 := PrimeField.sub p (PrimeField.mul p lam lam) (PrimeField.add p x1 x2)
        let y3 := PrimeField.sub p (PrimeField.mul p lam (PrimeField.sub p x1 x3)) y1
        some (.aff x3 y3)
      else none
    else
      let lam := PrimeField.mul p (PrimeField.sub p y2 y1)
        (PrimeField.inv p (PrimeField.sub p x2 x1))
      let x3 := PrimeField.sub p (PrimeField.mul p lam lam) (PrimeField.add p x1 x2)
      let y3 := PrimeField.sub p (PrimeField.mul p lam (PrimeField.sub p x1 x3)) y1
      some (.aff x3 y3)

/-- The `for i in f"{k:b}"[1:]` body of `EllipticCurve.mul`. -/
def mulLoop (p : Nat) (a : Int) (P : EcPoint) : List Bool → EcPoint → Option EcPoint
  | [], Q => some Q
  | i :: bs, Q => do
    let Q2 ← add p a Q Q
    let Q3 ← if i then add p a Q2 P else pure Q2
    mulLoop p a P bs Q3

/-- `EllipticCurve.mul`: left-to-right double-and-add starting from `Q = P`
(not from infinity), matching the source exactly; in particular
`mul 0 P = some P` because `f"{0:b}"[1:]` is empty. -/
def mul (p : Nat) (a : Int) (k : Nat) (P : EcPoint) : Option EcPoint :=
  mulLoop p a P (mulBits k) P

end EllipticCurve

/-- `ECDLP.kG k = ec.mul(k, G)`. -/
def ECDLP.kG (p : Nat) (a : Int) (G : EcPoint) (k : Nat) : Option EcPoint :=
  EllipticCurve.mul p a k G

/-- `PC_MODE` of `gmalg/base.py`. -/
inductive PCMode where
  | raw
  | compress
  | mixed
  deriving DecidableEq, Repr

/-- `gmalg.sm2.point_to_bytes` (and the identical `sm9.point_to_bytes_1`),
generic over the curve prime. -/
def pointToBytes (p : Nat) (P : EcPoint) (mode : PCMode) : List Nat :=
  match P, mode with
  | .inf, _ => [0x00]
  | .aff x y, .raw => 0x04 :: (PrimeField.etob p x ++ PrimeField.etob p y)
  | .aff x y, .compress => (if y % 2 = 1 then 0x03 else 0x02) :: PrimeField.etob p x
  | .aff x y, .mixed =>
    (if y % 2 = 1 then 0x07 else 0x06) :: (PrimeField.etob p x ++ PrimeField.etob p y)

/-- `gmalg.sm2.bytes_to_point` (and the identical `sm9.bytes_to_point_1`),
generic over the curve parameters.  Python indexing `b[0]` on an empty
string raises, modelled by `unknownError`. -/
def bytesToPoint (p : Nat) (a b : Int) : List Nat → Except GMErr EcPoint
  | [] => .error .unknownError
  | mode :: rest =>
    if mode = 0x00 then .ok .inf
    else
      let x := PrimeField.btoe (rest.take (PrimeField.pLength p))
      if mode = 0x04 ∨ mode = 0x06 ∨ mode = 0x07 then
        .ok (.aff x (PrimeField.btoe (rest.drop (PrimeField.pLength p))))
      else if mode = 0x02 ∨ mode = 0x03 then
        match EllipticCurve.getY p a b x with
        | none => .error .pointNotOnCurve
        | some y =>
          if (mode = 0x02 ∧ y % 2 = 1) ∨ (mode = 0x03 ∧ ¬y % 2 = 1) then
            .ok (.aff x (PrimeField.neg p y))
          else .ok (.aff x y)
      else .error .invalidPC

/-! SM3 hash, `gmalg/sm3.py`.  Words are `Nat` values kept below `2³²` by
masking exactly where the source masks. -/

namespace SM3

/-- `_ROL_T_TABLE` of `gmalg/sm3.py`, verbatim. -/
def rolTTable : List Nat :=
  [0x79cc4519, 0xf3988a32, 0xe7311465, 0xce6228cb, 0x9cc45197, 0x3988a32f, 0x7311465e, 0xe6228cbc,
   0xcc451979, 0x988a32f3, 0x311465e7, 0x6228cbce, 0xc451979c, 0x88a32f39, 0x11465e73, 0x228cbce6,
   0x9d8a7a87, 0x3b14f50f, 0x7629ea1e, 0xec53d43c, 0xd8a7a879, 0xb14f50f3, 0x629ea1e7, 0xc53d43ce,
   0x8a7a879d, 0x14f50f3b, 0x29ea1e76, 0x53d43cec, 0xa7a879d8, 0x4f50f3b1, 0x9ea1e762, 0x3d43cec5,
   0x7a879d8a, 0xf50f3b14, 0xea1e7629, 0xd43cec53, 0xa879d8a7, 0x50f3b14f, 0xa1e7629e, 0x43cec53d,
   0x879d8a7a, 0x0f3b14f5, 0x1e7629ea, 0x3cec53d4, 0x79d8a7a8, 0xf3b14f50, 0xe7629ea1, 0xcec53d43,
   0x9d8a7a87, 0x3b14f50f, 0x7629ea1e, 0xec53d43c, 0xd8a7a879, 0xb14f50f3, 0x629ea1e7, 0xc53d43ce,
   0x8a7a879d, 0x14f50f3b, 0x29ea1e76, 0x53d43cec, 0xa7a879d8, 0x4f50f3b1, 0x9ea1e762, 0x3d43cec5]

/-- `utils.ROL32`. -/
def rol32 (X : Nat) (count : Nat) : Nat :=
  let c := count &&& 0x1f
  ((X <<< c) ||| (X >>> (32 - c))) &&& 0xffffffff

/-- Python `(~X) & Z` on non-negative ints: since the bits of `Z ∧ X` are a
subset of those of `Z`, this equals `Z ^^^ (Z &&& X)` for all naturals. -/
def pyNotAnd (X Z : Nat) : Nat :=
  Z ^^^ (Z &&& X)

/-- `_FF`. -/
def ff (i X Y Z : Nat) : Nat :=
  if i ≤ 15 then X ^^^ Y ^^^ Z else (X &&& Y) ||| (X &&& Z) ||| (Y &&& Z)

/-- `_GG`. -/
def gg (i X Y Z : Nat) : Nat :=
  if i ≤ 15 then X ^^^ Y ^^^ Z else (X &&& Y) ||| pyNotAnd X Z

/-- `_P0`. -/
def p0 (X : Nat) : Nat :=
  X ^^^ rol32 X 9 ^^^ rol32 X 17

/-- `_P1`. -/
def p1 (X : Nat) : Nat :=
  X ^^^ rol32 X 15 ^^^ rol32 X 23

/-- The `for i in range(16, 68)` extension loop of `_expand`, appending one
word per fuel unit (`fuel = 52` at the call site).  Every `W1` entry is
written from the block or from earlier entries of the same call before it is
read, so the expansion is a pure function of the block. -/
def extendW1 : Nat → List Nat → List Nat
  | 0, acc => acc
  | fuel + 1, acc =>
    let i := acc.length
    let w := p1 (acc.getD (i - 16) 0 ^^^ acc.getD (i - 9) 0 ^^^ rol32 (acc.getD (i - 3) 0) 15) ^^^
      rol32 (acc.getD (i - 13) 0) 7 ^^^ acc.getD (i - 6) 0
    extendW1 fuel (acc ++ [w])

/-- `_expand`, first output `W1` (68 words). -/
def expand1 (B : List Nat) : List Nat :=
  extendW1 52 ((List.range 16).map (fun i => natFromBE ((B.drop (4 * i)).take 4)))

/-- `_expand`, second output `W2` (64 words). -/
def expand2 (W1 : List Nat) : List Nat :=
  (List.range 64).map (fun i => W1.getD i 0 ^^^ W1.getD (i + 4) 0)

/-- `_compress`: 64 rounds over the registers `(A, B, C, D, E, F, G, H)`,
then the final XOR into `V`. -/
def compress (V W1 W2 : List Nat) : List Nat :=
  let fin := (List.range 64).foldl
    (fun (r : Nat × Nat × Nat × Nat × Nat × Nat × Nat × Nat) i =>
      match r with
      | (A, Bw, C, D, E, F, G, H) =>
        let SS1 := rol32 ((rol32 A 12 + E + rolTTable.getD i 0) &&& 0xffffffff) 7
        let SS2 := SS1 ^^^ rol32 A 12
        let TT1 := (ff i A Bw C + D + SS2 + W2.getD i 0) &&& 0xffffffff
        let TT2 := (gg i E F G + H + SS1 + W1.getD i 0) &&& 0xffffffff
        (TT1, A, rol32 Bw 9, C, p0 TT2, E, rol32 F 19, G))
    (V.getD 0 0, V.getD 1 0, V.getD 2 0, V.getD 3 0, V.getD 4 0, V.getD 5 0, V.getD 6 0,
     V.getD 7 0)
  match fin with
  | (A, Bw, C, D, E, F, G, H) =>
    [V.getD 0 0 ^^^ A, V.getD 1 0 ^^^ Bw, V.getD 2 0 ^^^ C, V.getD 3 0 ^^^ D,
     V.getD 4 0 ^^^ E, V.getD 5 0 ^^^ F, V.getD 6 0 ^^^ G, V.getD 7 0 ^^^ H]

/-- `SM3.max_msg_length()`. -/
def maxMsgLength : Nat := 0x1fffffffffffffff

/-- The mutable state of an `SM3` object: `self._value`, `self._msg_len`,
`self._msg_block_buffer`, and the two shared scratch word buffers
`self._words_buffer1` / `self._words_buffer2`. -/
structure State where
  v : List Nat
  msgLen : Nat
  buf : List Nat
  w1 : List Nat
  w2 : List Nat
  deriving DecidableEq, Repr

/-- `SM3.__init__`. -/
def init : State :=
  { v := [0x7380166f, 0x4914b2b9, 0x172442d7, 0xda8a0600, 0xa96f30bc, 0x163138aa, 0xe38dee4d,
      0xb0fb0e4e],
    msgLen := 0,
    buf := [],
    w1 := List.replicate 68 0,
    w2 := List.replicate 64 0 }

/-- The `while pos + 63 < d_len` loop of `SM3.update`: consume full 64-byte
blocks from `data`, threading `(V, W1, W2)`; returns the final
`(V, W1, W2, remainder)`.  Fuel `data.length` suffices since each step drops
64 bytes. -/
def blocksLoop : Nat → List Nat → List Nat → List Nat → List Nat →
    List Nat × List Nat × List Nat × List Nat
  | 0, data, V, w1, w2 => (V, w1, w2, data)
  | fuel + 1, data, V, w1, w2 =>
    if data.length ≥ 64 then
      let W1 := expand1 (data.take 64)
      let W2 := expand2 W1
      blocksLoop fuel (data.drop 64) (compress V W1 W2) W1 W2
    else (V, w1, w2, data)

/-- The state transformation performed by `SM3.update` (everything after the
`max_msg_length` guard). -/
def updateData (s : State) (data : List Nat) : State :=
  let bLen := s.buf.length
  if bLen + data.length ≥ 64 then
    let begn := 64 - bLen
    let W1 := expand1 (s.buf ++ data.take begn)
    let W2 := expand2 W1
    let V1 := compress s.v W1 W2
    let q := blocksLoop (data.drop begn).length (data.drop begn) V1 W1 W2
    { v := q.1, msgLen := s.msgLen + data.length, buf := q.2.2.2, w1 := q.2.1, w2 := q.2.2.1 }
  else
    { s with buf := s.buf ++ data, msgLen := s.msgLen + data.length }

/-- `SM3.update`, including the `DataOverflowError` guard. -/
def update (s : State) (data : List Nat) : Except GMErr State :=
  if s.msgLen + data.length > maxMsgLength then .error .dataOverflow
  else .ok (updateData s data)

/-- Digest serialization at the end of `SM3.value`. -/
def digestOf (V : List Nat) : List Nat :=
  V.foldl (fun acc w => acc ++ natToBE 4 w) []

/-- `SM3.value`, returned together with the post-call object state: the
method copies `self._msg_block_buffer` and `self._value` before padding and
compressing, so only the scratch word buffers are left mutated. -/
def valueFull (s : State) : List Nat × State :=
  let bLen := s.buf.length
  let B1 := s.buf ++ [0x80]
  if bLen < 56 then
    let B3 := (B1 ++ List.replicate (56 - (bLen + 1)) 0x00) ++ natToBE 8 (s.msgLen <<< 3)
    let W1 := expand1 B3
    let W2 := expand2 W1
    (digestOf (compress s.v W1 W2), { s with w1 := W1, w2 := W2 })
  else
    let B2 := B1 ++ List.replicate (64 - (bLen + 1)) 0x00
    let W1 := expand1 B2
    let W2 := expand2 W1
    let V1 := compress s.v W1 W2
    let B3 := List.replicate 56 0x00 ++ natToBE 8 (s.msgLen <<< 3)
    let W1' := expand1 B3
    let W2' := expand2 W1'
    (digestOf (compress V1 W1' W2'), { s with w1 := W1', w2 := W2' })

end SM3

/-- `SMCoreBase._hash_fn` instantiated with `SM3`: hash a whole message with
a fresh `SM3` object.  The `DataOverflowError` guard of `update` cannot fire
below `2⁶¹` bytes, so the one-shot hash is the pure composition. -/
def sm3Bytes (data : List Nat) : List Nat :=
  (SM3.valueFull (SM3.updateData SM3.init data)).1

/-- `SMCoreBase._key_derivation_fn`, generic over the supplied hash class:
`H` is the one-shot hash and `v` its `hash_length()`. -/
def kdf (H : List Nat → List Nat) (v : Nat) (Z : List Nat) (klen : Nat) :
    Except GMErr (List Nat) :=
  let count := klen / v
  let tail := klen % v
  if count + (if tail > 0 then 1 else 0) > 0xffffffff then .error .dataOverflow
  else
    .ok ((List.range count).foldl (fun K ct => K ++ H (Z ++ natToBE 4 (ct + 1))) [] ++
      (if tail > 0 then (H (Z ++ natToBE 4 (count + 1))).take tail else []))

namespace SM2Core

/-- `SM2Core.entity_info`, generic over the curve parameters and the hash.
Unpacking `xP, yP = pk` on the Python infinity pair would feed floats into
`etob`, a crash; modelled as `unknownError`. -/
def entityInfo (H : List Nat → List Nat) (p : Nat) (a b gx gy : Int) (uid : List Nat)
    (pk : EcPoint) : Except GMErr (List Nat) :=
  let ENTL := uid.length <<< 3
  if bitLen ENTL ≥ 16 then .error .dataOverflow
  else
    match pk with
    | .inf => .error .unknownError
    | .aff xP yP =>
      .ok (H (natToBE 2 ENTL ++ uid ++ PrimeField.etob p a ++ PrimeField.etob p b ++
        PrimeField.etob p gx ++ PrimeField.etob p gy ++ PrimeField.etob p xP ++
        PrimeField.etob p yP))

/-- The `while True` loop of `SM2Core.sign` fused with the rejection sampling
of `SMCoreBase._randint(1, n - 1)`: each candidate `k` is taken from the
front of the draw stream, out-of-range draws are skipped, and the loop
restarts on a zero `r`, `r + k ≡ 0`, or zero `s`.  An exhausted stream is
`noMoreDraws`. -/
def signLoop (p : Nat) (a : Int) (G : EcPoint) (n : Nat) (e : Nat) (sk : Nat) :
    List Nat → Except GMErr (Int × Int)
  | [] => .error .noMoreDraws
  | k :: draws =>
    if k < 1 ∨ k > n - 1 then signLoop p a G n e sk draws
    else
      match ECDLP.kG p a G k with
      | none => .error .unknownError
      | some .inf => .error .unknownError
      | some (.aff x _) =>
        let r := PrimeField.add n (e : Int) x
        if PrimeField.iszero r ∨ PrimeField.iszero (PrimeField.add n r (k : Int)) then
          signLoop p a G n e sk draws
        else
          let s := PrimeField.mul n (PrimeField.sub n (k : Int) (PrimeField.mul n r (sk : Int)))
            (PrimeField.inv n (1 + (sk : Int)))
          if PrimeField.iszero s then signLoop p a G n e sk draws
          else .ok (r, s)

/-- `SM2Core.sign` with an explicitly supplied public key (`pk` is always
passed by the façade). -/
def sign (H : List Nat → List Nat) (p : Nat) (a b gx gy : Int) (n : Nat)
    (message : List Nat) (sk : Nat) (uid : List Nat) (pk : EcPoint) (draws : List Nat) :
    Except GMErr (Int × Int) := do
  let z ← entityInfo H p a b gx gy uid pk
  let e := natFromBE (H (z ++ message))
  signLoop p a (.aff gx gy) n e sk draws

/-- The `while True` loop of `SM2Core.encrypt` fused with `_randint`:
`h` is the cofactor, `H`/`v` the hash and its output length.  The loop
restarts only on an all-zero key stream; `InfinitePointError` and the
`KDF` overflow are surfaced. -/
def encryptLoop (p : Nat) (a : Int) (G : EcPoint) (n h : Nat)
    (H : List Nat → List Nat) (v : Nat) (plain : List Nat) (pk : EcPoint) :
    List Nat → Except GMErr (EcPoint × List Nat × List Nat)
  | [] => .error .noMoreDraws
  | k :: draws =>
    if k < 1 ∨ k > n - 1 then encryptLoop p a G n h H v plain pk draws
    else
      match ECDLP.kG p a G k with
      | none => .error .unknownError
      | some C1 =>
        match EllipticCurve.mul p a h pk with
        | none => .error .unknownError
        | some hpk =>
          if hpk = .inf then .error .infinitePoint
          else
            match EllipticCurve.mul p a k pk with
            | none => .error .unknownError
            | some .inf => .error .unknownError
            | some (.aff x2 y2) => do
              let x2b := PrimeField.etob p x2
              let y2b := PrimeField.etob p y2
              let t ← kdf H v (x2b ++ y2b) plain.length
              if anyByte t then
                .ok (C1, xorBytes plain t, H (x2b ++ plain ++ y2b))
              else encryptLoop p a G n h H v plain pk draws

/-- `SM2Core.encrypt`. -/
def encrypt (p : Nat) (a : Int) (G : EcPoint) (n h : Nat) (H : List Nat → List Nat) (v : Nat)
    (plain : List Nat) (pk : EcPoint) (draws : List Nat) :
    Except GMErr (EcPoint × List Nat × List Nat) :=
  encryptLoop p a G n h H v plain pk draws

/-- `SM2Core.decrypt`. -/
def decrypt (p : Nat) (a b : Int) (h : Nat) (H : List Nat → List Nat) (v : Nat)
    (C1 : EcPoint) (C2 C3 : List Nat) (sk : Nat) : Except GMErr (List Nat) :=
  if ¬EllipticCurve.isvalid p a b C1 then .error .pointNotOnCurve
  else
    match EllipticCurve.mul p a h C1 with
    | none => .error .unknownError
    | some hC1 =>
      if hC1 = .inf then .error .infinitePoint
      else
        match EllipticCurve.mul p a sk C1 with
        | none => .error .unknownError
        | some .inf => .error .unknownError
        | some (.aff x2 y2) => do
          let x2b := PrimeField.etob p x2
          let y2b := PrimeField.etob p y2
          let t ← kdf H v (x2b ++ y2b) C2.length
          if ¬anyByte t then .error .unknownError
          else
            let M := xorBytes C2 t
            if H (x2b ++ M ++ y2b) ≠ C3 then .error .checkFailed
            else .ok M

end SM2Core

/-! The fixed `sm2p256v1` parameters of `gmalg.sm2._ecdlp`. -/

def sm2p : Nat := 0xFFFFFFFEFFFFFFFFFFFFFFFFFFFFFFFFFFFFFFFF00000000FFFFFFFFFFFFFFFF

def sm2a : Int := 0xFFFFFFFEFFFFFFFFFFFFFFFFFFFFFFFFFFFFFFFF00000000FFFFFFFFFFFFFFFC

def sm2b : Int := 0x28E9FA9E9D9F5E344D5A9E4BCF6509A7F39789F515AB8F92DDBCBD414D940E93

def sm2gx : Int := 0x32C4AE2C1F1981195F9904466A39C9948FE30BBFF2660BE1715A4589334C74C7

def sm2gy : Int := 0xBC3736A2F4F6779C59BDCEE36B692153D0A9877CC62A474002DF32E52139F0A0

def sm2n : Nat := 0xFFFFFFFEFFFFFFFFFFFFFFFFFFFFFFFF7203DF6B21C6052B53BBF40939D54123

/-- `gmalg.sm2._ecdlp.kG` on the fixed SM2 curve. -/
def sm2kG (k : Nat) : Option EcPoint :=
  ECDLP.kG sm2p sm2a (.aff sm2gx sm2gy) k

/-- The `C1` prefix dispatch of the `SM2.decrypt` façade
(`gmalg/sm2.py`, lines 595-627): split the wire ciphertext into
`C1 ‖ C3 ‖ C2` by the leading PC byte, then call `SM2Core.decrypt`.
`hash_length` is SM3's 32. -/
def sm2FacadeDecrypt (cipher : List Nat) (sk : Nat) : Except GMErr (List Nat) :=
  match cipher with
  | [] => .error .unknownError
  | mode :: _ =>
    let length := PrimeField.pLength sm2p
    if mode = 0x04 ∨ mode = 0x06 ∨ mode = 0x07 then
      let c1len := 1 + length * 2
      let C3 := (cipher.drop c1len).take 32
      let C2 := cipher.drop (c1len + 32)
      do
        let C1 ← bytesToPoint sm2p sm2a sm2b (cipher.take c1len)
        SM2Core.decrypt sm2p sm2a sm2b 1 sm3Bytes 32 C1 C2 C3 sk
    else if mode = 0x02 ∨ mode = 0x03 then
      let c1len := 1 + length
      let C3 := (cipher.drop c1len).take 32
      let C2 := cipher.drop (c1len + 32)
      do
        let C1 ← bytesToPoint sm2p sm2a sm2b (cipher.take c1len)
        SM2Core.decrypt sm2p sm2a sm2b 1 sm3Bytes 32 C1 C2 C3 sk
    else .error .invalidPC

namespace SM9Core

/-- `SM9Core._mac`: `self._hash_fn(Z + key)` — the MAC key is appended
after the data. -/
def mac (H : List Nat → List Nat) (key Z : List Nat) : List Nat :=
  H (Z ++ key)

/-- The tail of `SM9Core.encrypt` after the `encapsulate` call, which is
abstracted by its returned pair `(K, C1)`: `encapsulate` itself depends on
the `BNBP` pairing class, which is referenced by `gmalg/sm9.py` but not
present in `gmalg/ellipticcurve.py`; the claim under test only concerns the
split of `K` and the MAC input order, both fully visible here. -/
def encryptTail (H : List Nat → List Nat) (plain : List Nat) (K : List Nat) (C1 : EcPoint) :
    EcPoint × List Nat × List Nat :=
  let mlen := plain.length
  let K1 := K.take mlen
  let K2 := K.drop mlen
  let C2 := xorBytes plain K1
  (C1, C2, mac H K2 C2)

end SM9Core

/-! Decidability of result comparisons, used by concrete evaluations. -/

instance (priority := low) {ε α : Type} [DecidableEq ε] [DecidableEq α] :
    DecidableEq (Except ε α)
  | .ok x, .ok y =>
    match decEq x y with
    | isTrue h => isTrue (by rw [h])
    | isFalse h => isFalse (by intro hc; cases hc; exact h rfl)
  | .ok _, .error _ => isFalse (by intro hc; cases hc)
  | .error _, .ok _ => isFalse (by intro hc; cases hc)
  | .error e, .error f =>
    match decEq e f with
    | isTrue h => isTrue (by rw [h])
    | isFalse h => isFalse (by intro hc; cases hc; exact h rfl)

/-! Canonical-range predicates for the tower fields (claim C8). -/

/-- `x` is a canonical representative: `0 ≤ x < p`. -/
def inR (p : Nat) (x : Int) : Prop :=
  0 ≤ x ∧ x < (p : Int)

instance (p : Nat) (x : Int) : Decidable (inR p x) := by
  unfold inR; infer_instance

def inR2 (p : Nat) (X : Fp2Ele) : Prop :=
  inR p X.1 ∧ inR p X.2

def inR4 (p : Nat) (X : Fp4Ele) : Prop :=
  inR2 p X.1 ∧ inR2 p X.2

def inR12 (p : Nat) (X : Fp12Ele) : Prop :=
  inR4 p X.1 ∧ inR4 p X.2.1 ∧ inR4 p X.2.2

instance (p : Nat) (X : Fp2Ele) : Decidable (inR2 p X) := by
  unfold inR2; infer_instance

instance (p : Nat) (X : Fp4Ele) : Decidable (inR4 p X) := by
  unfold inR4; infer_instance

instance (p : Nat) (X : Fp12Ele) : Decidable (inR12 p X) := by
  unfold inR12; infer_instance

/-- Both coordinates of an affine point are canonical representatives;
infinity has no coordinates. -/
def canonPoint (p : Nat) : EcPoint → Prop
  | .inf => True
  | .aff x y => inR p x ∧ inR p y

instance (p : Nat) (P : EcPoint) : Decidable (canonPoint p P) := by
  cases P <;> simp only [canonPoint] <;> infer_instance

/-- The curve equation as checked by `EllipticCurve.isvalid` on affine
points; infinity is vacuously on the curve (it is the group identity). -/
def onCurve (p : Nat) (a b : Int) : EcPoint → Prop
  | .inf => True
  | .aff x y => PrimeField.mul p y y = EllipticCurve.getYSqr p a b x

instance (p : Nat) (a b : Int) (P : EcPoint) : Decidable (onCurve p a b P) := by
  cases P <;> simp only [onCurve] <;> infer_instance

/-! Bridge to Mathlib's affine Weierstrass curves, used to transfer the
group law to the embedded point arithmetic (claim C1). -/

/-- The short Weierstrass curve `y² = x³ + ax + b` over `ZMod p`
corresponding to the embedded curve parameters. -/
def curveW (p : Nat) (a b : Int) : WeierstrassCurve.Affine (ZMod p) :=
  { a₁ := 0, a₂ := 0, a₃ := 0, a₄ := (a : ZMod p), a₆ := (b : ZMod p) }

/-- A point is valid when its coordinates are canonical and it satisfies
the curve equation (the façades only construct such points). -/
def ValidPt (p : Nat) (a b : Int) (P : EcPoint) : Prop :=
  canonPoint p P ∧ onCurve p a b P

instance (p : Nat) (a b : Int) (P : EcPoint) : Decidable (ValidPt p a b P) := by
  unfold ValidPt
  infer_instance

open Classical in
/-- Interpretation of an embedded point as a Mathlib curve point; invalid
inputs (which never arise from valid points) are collapsed to the identity. -/
noncomputable def toWPt (p : Nat) (a b : Int) : EcPoint → (curveW p a b).Point
  | .inf => 0
  | .aff x y =>
    if h : (curveW p a b).Nonsingular (x : ZMod p) (y : ZMod p) then
      WeierstrassCurve.Affine.Point.some h
    else 0

/-! ### End of definitions; theorems follow. -/

set_option maxRecDepth 2000

/-- Claim C3, counterexample: on the fixed SM2 curve, `ECDLP.kG(0)` is not
the point at infinity — `f"{0:b}"[1:]` is empty, so the double-and-add loop
performs no iteration and returns its starting point `G`. -/
theorem sm2_kG_zero_not_inf : ¬sm2kG 0 = some EcPoint.inf := by
  decide

/-- Claim C3, amended: for scalar `k = 0`, the scalar multiplication used by
the ECDLP bundle returns the base point `G` itself (the loop of
`EllipticCurve.mul` starts from `P`, not from `INF`, and processes no bits
for `k = 0`), not the point at infinity. -/
theorem sm2_kG_zero_eq_G : sm2kG 0 = some (EcPoint.aff sm2gx sm2gy) := by
  decide

/-- Claim C10: a wire ciphertext whose leading byte is `0x00` is rejected by
the `SM2.decrypt` façade with `InvalidPC`, although `0x00` is exactly the
serialization of the point at infinity produced by `point_to_bytes` (in
every mode) and accepted by `bytes_to_point`. -/
theorem sm2_decrypt_rejects_infinity_c1 :
    ∀ (rest : List Nat) (sk : Nat) (mode : PCMode),
      sm2FacadeDecrypt (0x00 :: rest) sk = .error .invalidPC ∧
      pointToBytes sm2p .inf mode = [0x00] ∧
      bytesToPoint sm2p sm2a sm2b [0x00] = .ok .inf := by
  intro rest sk mode
  refine ⟨?_, ?_, rfl⟩
  · simp [sm2FacadeDecrypt]
  · cases mode <;> rfl

/-- Claim C4: the `p % 8 = 1` square-root branch is reached for the prime
`17`, and fails on the quadratic residue `4 = 2²` although a root exists:
the transcribed guard `if U != 1 or U != p_1` of `_sqrt_8u1` is true for
every `U`, so the `for X in range(1, p)` loop aborts on the first `X` whose
Lucas pair does not immediately yield a root. -/
theorem sqrt_8u1_rejects_residue :
    17 % 8 = 1 ∧ Nat.Prime 17 ∧ (2 * 2) % 17 = 4 ∧ PrimeField.sqrt 17 4 = none := by
  refine ⟨by decide, by norm_num, by decide, by decide⟩

/-- Claim C5: `SM2Core.entity_info` raises `DataOverflowError` already for a
4096-byte uid, whose `ENTL = 4096*8 = 32768` does fit in 16 bits: the guard
`ENTL.bit_length() >= 16` fires one bit early (its own docstring promises
failure only beyond 8192 bytes). -/
theorem sm2_entity_info_4096_overflow :
    SM2Core.entityInfo sm3Bytes sm2p sm2a sm2b sm2gx sm2gy (List.replicate 4096 0)
      (.aff 1 2) = .error .dataOverflow ∧ 4096 * 8 < 2 ^ 16 := by
  constructor
  · unfold SM2Core.entityInfo
    rw [List.length_replicate, if_pos (by decide)]
  · decide

/-- Claim C2, counterexample: `SM9Core.encrypt` (with the SM3 hash the
façade supplies) does not return `C3 = H(K2 ‖ C2)`: at key material
`K = [1, 2]` and plaintext `[0]` the produced `C3 = H(C2 ‖ K2)` differs
from `H(K2 ‖ C2)`. -/
theorem sm9_encrypt_mac_order_cex :
    (SM9Core.encryptTail sm3Bytes [0] [1, 2] EcPoint.inf).2.2 ≠
      sm3Bytes ([2] ++ (SM9Core.encryptTail sm3Bytes [0] [1, 2] EcPoint.inf).2.1) := by
  decide

/-- Claim C2, amended: `SM9Core.encrypt` splits the encapsulated key `K` of
length `len(plain) + mac_klen` into `K1 = K[:len(plain)]` and
`K2 = K[len(plain):]`, and returns `C3 = H(C2 ‖ K2)` — the MAC key `K2`
appears after the ciphertext `C2` in the hash input (`_mac(key, Z)` hashes
`Z + key`). -/
theorem sm9_encrypt_mac_key_after_cipher :
    ∀ (H : List Nat → List Nat) (plain K : List Nat) (C1 : EcPoint),
      SM9Core.encryptTail H plain K C1 =
        (C1, xorBytes plain (K.take plain.length),
          H (xorBytes plain (K.take plain.length) ++ K.drop plain.length)) := by
  intro H plain K C1
  rfl

/-! Helper lemmas: every base-field operation reduces modulo `p`, so its
output is canonical whenever `p > 0`. -/

theorem inR_emod (p : Nat) (hp : 0 < p) (x : Int) : inR p (x % (p : Int)) := by
  refine ⟨Int.emod_nonneg x ?_, Int.emod_lt_of_pos x ?_⟩
  · exact_mod_cast hp.ne'
  · exact_mod_cast hp

theorem inR2_add (p : Nat) (hp : 0 < p) (X Y : Fp2Ele) : inR2 p (PrimeField2.add p X Y) :=
  ⟨inR_emod p hp _, inR_emod p hp _⟩

theorem inR2_sub (p : Nat) (hp : 0 < p) (X Y : Fp2Ele) : inR2 p (PrimeField2.sub p X Y) :=
  ⟨inR_emod p hp _, inR_emod p hp _⟩

theorem inR2_neg (p : Nat) (hp : 0 < p) (X : Fp2Ele) : inR2 p (PrimeField2.neg p X) :=
  ⟨inR_emod p hp _, inR_emod p hp _⟩

theorem inR2_mul (p : Nat) (hp : 0 < p) (X Y : Fp2Ele) : inR2 p (PrimeField2.mul p X Y) :=
  ⟨inR_emod p hp _, inR_emod p hp _⟩

theorem inR2_inv (p : Nat) (hp : 0 < p) (X : Fp2Ele) : inR2 p (PrimeField2.inv p X) :=
  ⟨inR_emod p hp _, inR_emod p hp _⟩

theorem inR2_pow (p : Nat) (hp : 0 < p) (X : Fp2Ele) (hX : inR2 p X) (e : Nat) :
    inR2 p (PrimeField2.pow p X e) := by
  unfold PrimeField2.pow
  have aux : ∀ (l : List Bool) (Y : Fp2Ele), inR2 p Y →
      inR2 p (l.foldl
        (fun Y i => if i then PrimeField2.mul p (PrimeField2.mul p Y Y) X
          else PrimeField2.mul p Y Y) Y) := by
    intro l
    induction l with
    | nil => exact fun Y hY => hY
    | cons i l ih =>
      intro Y hY
      cases i <;> simp only [List.foldl_cons] <;> exact ih _ (inR2_mul p hp _ _)
  exact aux (mulBits e) X hX

theorem inR4_add (p : Nat) (hp : 0 < p) (X Y : Fp4Ele) : inR4 p (PrimeField4.add p X Y) :=
  ⟨inR2_add p hp _ _, inR2_add p hp _ _⟩

theorem inR4_sub (p : Nat) (hp : 0 < p) (X Y : Fp4Ele) : inR4 p (PrimeField4.sub p X Y) :=
  ⟨inR2_sub p hp _ _, inR2_sub p hp _ _⟩

theorem inR4_neg (p : Nat) (hp : 0 < p) (X : Fp4Ele) : inR4 p (PrimeField4.neg p X) :=
  ⟨inR2_neg p hp _, inR2_neg p hp _⟩

theorem inR4_mul (p : Nat) (hp : 0 < p) (X Y : Fp4Ele) : inR4 p (PrimeField4.mul p X Y) :=
  ⟨inR2_sub p hp _ _, inR2_add p hp _ _⟩

theorem inR4_inv (p : Nat) (hp : 0 < p) (X : Fp4Ele) : inR4 p (PrimeField4.inv p X) :=
  ⟨inR2_mul p hp _ _, inR2_mul p hp _ _⟩

theorem inR4_pow (p : Nat) (hp : 0 < p) (X : Fp4Ele) (hX : inR4 p X) (e : Nat) :
    inR4 p (PrimeField4.pow p X e) := by
  unfold PrimeField4.pow
  have aux : ∀ (l : List Bool) (Y : Fp4Ele), inR4 p Y →
      inR4 p (l.foldl
        (fun Y i => if i then PrimeField4.mul p (PrimeField4.mul p Y Y) X
          else PrimeField4.mul p Y Y) Y) := by
    intro l
    induction l with
    | nil => exact fun Y hY => hY
    | cons i l ih =>
      intro Y hY
      cases i <;> simp only [List.foldl_cons] <;> exact ih _ (inR4_mul p hp _ _)
  exact aux (mulBits e) X hX

theorem inR12_add (p : Nat) (hp : 0 < p) (X Y : Fp12Ele) : inR12 p (PrimeField12.add p X Y) :=
  ⟨inR4_add p hp _ _, inR4_add p hp _ _, inR4_add p hp _ _⟩

theorem inR12_sub (p : Nat) (hp : 0 < p) (X Y : Fp12Ele) : inR12 p (PrimeField12.sub p X Y) :=
  ⟨inR4_sub p hp _ _, inR4_sub p hp _ _, inR4_sub p hp _ _⟩

theorem inR12_neg (p : Nat) (hp : 0 < p) (X : Fp12Ele) : inR12 p (PrimeField12.neg p X) :=
  ⟨inR4_neg p hp _, inR4_neg p hp _, inR4_neg p hp _⟩

theorem inR12_mul (p : Nat) (hp : 0 < p) (X Y : Fp12Ele) : inR12 p (PrimeField12.mul p X Y) :=
  ⟨inR4_sub p hp _ _, inR4_sub p hp _ _, inR4_add p hp _ _⟩

theorem inR12_inv (p : Nat) (hp : 0 < p) (X : Fp12Ele) : inR12 p (PrimeField12.inv p X) :=
  ⟨inR4_mul p hp _ _, inR4_mul p hp _ _, inR4_mul p hp _ _⟩

theorem inR12_pow (p : Nat) (hp : 0 < p) (X : Fp12Ele) (hX : inR12 p X) (e : Nat) :
    inR12 p (PrimeField12.pow p X e) := by
  unfold PrimeField12.pow
  have aux : ∀ (l : List Bool) (Y : Fp12Ele), inR12 p Y →
      inR12 p (l.foldl
        (fun Y i => if i then PrimeField12.mul p (PrimeField12.mul p Y Y) X
          else PrimeField12.mul p Y Y) Y) := by
    intro l
    induction l with
    | nil => exact fun Y hY => hY
    | cons i l ih =>
      intro Y hY
      cases i <;> simp only [List.foldl_cons] <;> exact ih _ (inR12_mul p hp _ _)
  exact aux (mulBits e) X hX

/-- Claim C8: over any positive modulus (in particular any prime `p`), each
arithmetic operation of `PrimeField2`, `PrimeField4` and `PrimeField12`
(`add`, `sub`, `neg`, `mul`, `inv`, `pow`) maps inputs whose base-field
components lie in `[0, p)` to an output all of whose components lie in
`[0, p)` — every operation ends in a reduction `% p` componentwise (`pow`
returns its input unchanged for exponent 0), so structural tuple equality
coincides with field equality on operation results. -/
theorem tower_ops_canonical (p : Nat) (hp : 0 < p) :
    (∀ X Y : Fp2Ele, inR2 p X → inR2 p Y →
      inR2 p (PrimeField2.add p X Y) ∧ inR2 p (PrimeField2.sub p X Y) ∧
      inR2 p (PrimeField2.neg p X) ∧ inR2 p (PrimeField2.mul p X Y) ∧
      inR2 p (PrimeField2.inv p X) ∧ ∀ e, inR2 p (PrimeField2.pow p X e)) ∧
    (∀ X Y : Fp4Ele, inR4 p X → inR4 p Y →
      inR4 p (PrimeField4.add p X Y) ∧ inR4 p (PrimeField4.sub p X Y) ∧
      inR4 p (PrimeField4.neg p X) ∧ inR4 p (PrimeField4.mul p X Y) ∧
      inR4 p (PrimeField4.inv p X) ∧ ∀ e, inR4 p (PrimeField4.pow p X e)) ∧
    (∀ X Y : Fp12Ele, inR12 p X → inR12 p Y →
      inR12 p (PrimeField12.add p X Y) ∧ inR12 p (PrimeField12.sub p X Y) ∧
      inR12 p (PrimeField12.neg p X) ∧ inR12 p (PrimeField12.mul p X Y) ∧
      inR12 p (PrimeField12.inv p X) ∧ ∀ e, inR12 p (PrimeField12.pow p X e)) := by
  refine ⟨fun X Y hX _ => ?_, fun X Y hX _ => ?_, fun X Y hX _ => ?_⟩
  · exact ⟨inR2_add p hp X Y, inR2_sub p hp X Y, inR2_neg p hp X, inR2_mul p hp X Y,
      inR2_inv p hp X, inR2_pow p hp X hX⟩
  · exact ⟨inR4_add p hp X Y, inR4_sub p hp X Y, inR4_neg p hp X, inR4_mul p hp X Y,
      inR4_inv p hp X, inR4_pow p hp X hX⟩
  · exact ⟨inR12_add p hp X Y, inR12_sub p hp X Y, inR12_neg p hp X, inR12_mul p hp X Y,
      inR12_inv p hp X, inR12_pow p hp X hX⟩

/-- Claim C8, witness: the theorem applied at `p = 3`, `X = (1, 2)`,
`Y = (0, 1)`, exponent 5. -/
theorem tower_ops_canonical_witness :
    inR2 3 (PrimeField2.mul 3 (1, 2) (0, 1)) ∧ inR2 3 (PrimeField2.pow 3 (1, 2) 5) := by
  have h := (tower_ops_canonical 3 (by decide)).1 (1, 2) (0, 1) (by decide) (by decide)
  exact ⟨h.2.2.2.1, h.2.2.2.2.2 5⟩

/-! Claim C9 helpers: `SM3.value` copies the message buffer and the chaining
value, so the post-call state differs from the pre-call state only in the
scratch word buffers, and no digest computation reads those buffers. -/

theorem sm3_valueFull_state (s : SM3.State) :
    ∃ u1 u2, (SM3.valueFull s).2 = { s with w1 := u1, w2 := u2 } := by
  simp only [SM3.valueFull]
  split <;> exact ⟨_, _, rfl⟩

theorem sm3_valueFull_digest_congr (s t : SM3.State) (hv : s.v = t.v)
    (hm : s.msgLen = t.msgLen) (hb : s.buf = t.buf) :
    (SM3.valueFull s).1 = (SM3.valueFull t).1 := by
  cases s
  cases t
  cases hv
  cases hm
  cases hb
  rfl

theorem sm3_updateData_congr (s t : SM3.State) (d : List Nat) (hv : s.v = t.v)
    (hm : s.msgLen = t.msgLen) (hb : s.buf = t.buf) :
    (SM3.updateData s d).v = (SM3.updateData t d).v ∧
    (SM3.updateData s d).msgLen = (SM3.updateData t d).msgLen ∧
    (SM3.updateData s d).buf = (SM3.updateData t d).buf := by
  cases s
  cases t
  cases hv
  cases hm
  cases hb
  simp only [SM3.updateData]
  split <;> exact ⟨rfl, rfl, rfl⟩

/-- Claim C9: `SM3.value()` does not change the observable hash state.  The
state it leaves behind agrees with the input state on the chaining value,
the message length and the message buffer (only the write-before-read
scratch word buffers may change); calling `value()` again returns the same
digest; and an `update` followed by `value()` after an earlier `value()`
call returns exactly what it would have returned with no earlier call
(including the `DataOverflowError` behaviour of `update`). -/
theorem sm3_value_pure (s : SM3.State) (d : List Nat) :
    (SM3.valueFull s).2.v = s.v ∧
    (SM3.valueFull s).2.msgLen = s.msgLen ∧
    (SM3.valueFull s).2.buf = s.buf ∧
    (SM3.valueFull (SM3.valueFull s).2).1 = (SM3.valueFull s).1 ∧
    (SM3.update (SM3.valueFull s).2 d).map (fun s1 => (SM3.valueFull s1).1) =
      (SM3.update s d).map (fun s1 => (SM3.valueFull s1).1) := by
  obtain ⟨u1, u2, hs⟩ := sm3_valueFull_state s
  have hv : (SM3.valueFull s).2.v = s.v := by rw [hs]
  have hm : (SM3.valueFull s).2.msgLen = s.msgLen := by rw [hs]
  have hb : (SM3.valueFull s).2.buf = s.buf := by rw [hs]
  refine ⟨hv, hm, hb, sm3_valueFull_digest_congr _ _ hv hm hb, ?_⟩
  unfold SM3.update
  rw [hm]
  split
  · rfl
  · obtain ⟨h1, h2, h3⟩ := sm3_updateData_congr _ _ d hv hm hb
    simp only [Except.map]
    rw [sm3_valueFull_digest_congr _ _ h1 h2 h3]

/-- Claim C7: `SM2Core.sign` is purely functional in its inputs and its RNG
draws.  The embedding makes all state explicit — the hash object of
`_hash_fn` is created per call and the random source is the draw stream —
so two runs with the same message, secret key, uid, public key and the same
sequence of RNG draws return identical results (the same signature `(r, s)`,
or the same error). -/
theorem sm2_sign_deterministic (H : List Nat → List Nat) (p : Nat) (a b gx gy : Int)
    (n : Nat) (message : List Nat) (sk : Nat) (uid : List Nat) (pk : EcPoint)
    (draws1 draws2 : List Nat) (hdraws : draws1 = draws2) :
    SM2Core.sign H p a b gx gy n message sk uid pk draws1 =
      SM2Core.sign H p a b gx gy n message sk uid pk draws2 := by
  rw [hdraws]

/-- Claim C7, witness: two runs on the fixed SM2 curve with the SM3 hash and
the equal draw streams `[3]`. -/
theorem sm2_sign_deterministic_witness :
    SM2Core.sign sm3Bytes sm2p sm2a sm2b sm2gx sm2gy sm2n [1] 1 [2] (.aff 1 2) [3] =
      SM2Core.sign sm3Bytes sm2p sm2a sm2b sm2gx sm2gy sm2n [1] 1 [2] (.aff 1 2) [3] :=
  sm2_sign_deterministic sm3Bytes sm2p sm2a sm2b sm2gx sm2gy sm2n [1] 1 [2] (.aff 1 2)
    [3] [3] rfl

/-! Bridge between the `Int`-with-`% p` embedding and the field `ZMod p`:
casts of the `PrimeField` operations, injectivity on canonical
representatives, and correctness of the extended-Euclid inverse. -/

theorem castInt_emod (p : Nat) (x : Int) : ((x % (p : Int) : Int) : ZMod p) = (x : ZMod p) :=
  ZMod.intCast_mod x p

theorem canon_cast_inj (p : Nat) {x y : Int} (hx : 0 ≤ x ∧ x < p) (hy : 0 ≤ y ∧ y < p)
    (h : (x : ZMod p) = (y : ZMod p)) : x = y := by
  rw [ZMod.intCast_eq_intCast_iff'] at h
  rwa [Int.emod_eq_of_lt hx.1 hx.2, Int.emod_eq_of_lt hy.1 hy.2] at h

theorem cast_fpAdd (p : Nat) (x y : Int) :
    ((PrimeField.add p x y : Int) : ZMod p) = (x : ZMod p) + (y : ZMod p) := by
  unfold PrimeField.add
  rw [castInt_emod]
  push_cast
  ring

theorem cast_fpSub (p : Nat) (x y : Int) :
    ((PrimeField.sub p x y : Int) : ZMod p) = (x : ZMod p) - (y : ZMod p) := by
  unfold PrimeField.sub
  rw [castInt_emod]
  push_cast
  ring

theorem cast_fpMul (p : Nat) (x y : Int) :
    ((PrimeField.mul p x y : Int) : ZMod p) = (x : ZMod p) * (y : ZMod p) := by
  unfold PrimeField.mul
  rw [castInt_emod]
  push_cast
  ring

theorem cast_fpNeg (p : Nat) (x : Int) :
    ((PrimeField.neg p x : Int) : ZMod p) = -(x : ZMod p) := by
  unfold PrimeField.neg
  rw [castInt_emod]
  push_cast
  ring

theorem cast_fpSmul (p : Nat) (k x : Int) :
    ((PrimeField.smul p k x : Int) : ZMod p) = (k : ZMod p) * (x : ZMod p) := by
  unfold PrimeField.smul
  rw [castInt_emod]
  push_cast
  ring

theorem cast_fpPow (p : Nat) (x : Int) (e : Nat) :
    ((PrimeField.pow p x e : Int) : ZMod p) = (x : ZMod p) ^ e := by
  unfold PrimeField.pow
  rw [castInt_emod]
  push_cast
  ring

theorem inR_fpAdd (p : Nat) (hp : 0 < p) (x y : Int) : inR p (PrimeField.add p x y) :=
  inR_emod p hp _

theorem inR_fpSub (p : Nat) (hp : 0 < p) (x y : Int) : inR p (PrimeField.sub p x y) :=
  inR_emod p hp _

theorem inR_fpMul (p : Nat) (hp : 0 < p) (x y : Int) : inR p (PrimeField.mul p x y) :=
  inR_emod p hp _

theorem inR_fpNeg (p : Nat) (hp : 0 < p) (x : Int) : inR p (PrimeField.neg p x) :=
  inR_emod p hp _

theorem inR_fpSmul (p : Nat) (hp : 0 < p) (k x : Int) : inR p (PrimeField.smul p k x) :=
  inR_emod p hp _

theorem inR_fpPow (p : Nat) (hp : 0 < p) (x : Int) (e : Nat) : inR p (PrimeField.pow p x e) :=
  inR_emod p hp _

theorem inR_fpInv (p : Nat) (hp : 0 < p) (x : Int) : inR p (PrimeField.inv p x) :=
  inR_emod p hp _

/-- Invariant of the extended-Euclid loop: if `t1·X ≡ a2` and `t2·X ≡ b2`,
the returned coefficient `t` satisfies `t·X ≡ gcd b2 a2` (mod `p`), for any
fuel exceeding `b2`. -/
theorem invLoop_spec (p : Nat) (X : ZMod p) :
    ∀ b2 : Nat, ∀ fuel : Nat, b2 < fuel → ∀ (a2 : Nat) (t1 t2 : Int),
      (t1 : ZMod p) * X = (a2 : ZMod p) → (t2 : ZMod p) * X = (b2 : ZMod p) →
      ((PrimeField.invLoop fuel (a2 : Int) (b2 : Int) t1 t2 : Int) : ZMod p) * X =
        (Nat.gcd b2 a2 : ZMod p) := by
  intro b2
  induction b2 using Nat.strong_induction_on with
  | _ b2 ih =>
    intro fuel hfuel a2 t1 t2 h1 h2
    cases fuel with
    | zero => omega
    | succ f =>
      unfold PrimeField.invLoop
      by_cases hb : 0 < b2
      · rw [if_pos (by exact_mod_cast hb)]
        have hcast : (a2 : Int) % (b2 : Int) = ((a2 % b2 : Nat) : Int) := by
          push_cast
          ring
        have hdiv : (a2 : Int) / (b2 : Int) = ((a2 / b2 : Nat) : Int) := by
          push_cast
          ring
        rw [hcast, hdiv]
        have hmodlt : a2 % b2 < b2 := Nat.mod_lt _ hb
        have hinv : ((t1 - ((a2 / b2 : Nat) : Int) * t2 : Int) : ZMod p) * X =
            ((a2 % b2 : Nat) : ZMod p) := by
          have hz : (b2 : ZMod p) * ((a2 / b2 : Nat) : ZMod p) + ((a2 % b2 : Nat) : ZMod p) =
              (a2 : ZMod p) := by
            exact_mod_cast congrArg (fun m : Nat => (m : ZMod p)) (Nat.div_add_mod a2 b2)
          rw [Int.cast_sub, Int.cast_mul, Int.cast_natCast, sub_mul, mul_assoc, h1, h2, ← hz]
          ring
        have ih2 := ih (a2 % b2) hmodlt f (by omega) b2 t2 (t1 - ((a2 / b2 : Nat) : Int) * t2)
          h2 hinv
        rw [ih2, Nat.gcd_rec b2 a2]
      · have hb0 : b2 = 0 := by omega
        subst hb0
        rw [if_neg (by decide)]
        simpa [Nat.gcd_zero_left] using h1

/-- `PrimeField.inv` computes the field inverse in `ZMod p` on canonical
inputs (including `inv 0 = 0`, matching `(0 : ZMod p)⁻¹ = 0`). -/
theorem cast_fpInv (p : Nat) (hp : Nat.Prime p) (x : Int) (hx : 0 ≤ x ∧ x < p) :
    ((PrimeField.inv p x : Int) : ZMod p) = (x : ZMod p)⁻¹ := by
  haveI : Fact (Nat.Prime p) := ⟨hp⟩
  by_cases hx0 : x = 0
  · subst hx0
    rw [show PrimeField.inv p 0 = 0 by rfl]
    simp
  · have hxpos : 0 < x := lt_of_le_of_ne hx.1 (Ne.symm hx0)
    have hxn : ((x.toNat : Nat) : Int) = x := Int.toNat_of_nonneg hx.1
    have h1 : ((0 : Int) : ZMod p) * (x : ZMod p) = ((p : Nat) : ZMod p) := by
      simp [ZMod.natCast_self]
    have h2 : ((1 : Int) : ZMod p) * (x : ZMod p) = ((x.toNat : Nat) : ZMod p) := by
      have hc : ((x.toNat : Nat) : ZMod p) = ((x.toNat : Int) : ZMod p) := (Int.cast_natCast _).symm
      rw [hc, hxn, Int.cast_one, one_mul]
    have hspec := invLoop_spec p (x : ZMod p) x.toNat (x.toNat + 1) (by omega) p 0 1 h1 h2
    have hgcd : Nat.gcd x.toNat p = 1 := by
      have hxlt : x.toNat < p := by omega
      have hnd : ¬p ∣ x.toNat := by
        intro hd
        have := Nat.le_of_dvd (by omega) hd
        omega
      have := (Nat.Prime.coprime_iff_not_dvd hp).mpr hnd
      exact Nat.Coprime.gcd_eq_one (Nat.Coprime.symm this)
    rw [hgcd] at hspec
    rw [hxn] at hspec
    have hone : ((PrimeField.invLoop (x.toNat + 1) ((p : Nat) : Int) x 0 1 : Int) : ZMod p) *
        (x : ZMod p) = 1 := by
      rw [hspec]
      exact Nat.cast_one
    unfold PrimeField.inv
    rw [castInt_emod]
    exact eq_inv_of_mul_eq_one_left hone

/-! Byte-serialization lemmas for the point codecs. -/

theorem natToBE_length (L n : Nat) : (natToBE L n).length = L := by
  induction L generalizing n with
  | zero => rfl
  | succ L ih => simp [natToBE, ih]

theorem natFromBE_append (l : List Nat) (b2 : Nat) :
    natFromBE (l ++ [b2]) = natFromBE l * 256 + b2 := by
  unfold natFromBE
  rw [List.foldl_append]
  rfl

theorem natFromBE_natToBE (L n : Nat) (h : n < 256 ^ L) : natFromBE (natToBE L n) = n := by
  induction L generalizing n with
  | zero =>
    have : n = 0 := by simpa using h
    simp [this, natToBE, natFromBE]
  | succ L ih =>
    have hdiv : n / 256 < 256 ^ L := by
      rw [Nat.div_lt_iff_lt_mul (by norm_num)]
      calc n < 256 ^ (L + 1) := h
      _ = 256 ^ L * 256 := by ring
    rw [natToBE, natFromBE_append, ih _ hdiv]
    omega

theorem lt_two_pow_bitsLSBAux (fuel : Nat) :
    ∀ n : Nat, n ≤ fuel → n < 2 ^ (bitsLSBAux fuel n).length := by
  induction fuel with
  | zero => intro n h; interval_cases n; decide
  | succ f ih =>
    intro n h
    by_cases h0 : n = 0
    · subst h0; simp [bitsLSBAux]
    · rw [bitsLSBAux, if_neg h0]
      have hle : n / 2 ≤ f := by omega
      have := ih (n / 2) hle
      simp only [List.length_cons, pow_succ]
      omega

theorem lt_two_pow_bitLen (n : Nat) : n < 2 ^ bitLen n :=
  lt_two_pow_bitsLSBAux n n le_rfl

theorem lt_pow256_pLength (p : Nat) : p < 256 ^ PrimeField.pLength p := by
  have h1 : p < 2 ^ bitLen p := lt_two_pow_bitLen p
  have h2 : bitLen p ≤ 8 * PrimeField.pLength p := by
    unfold PrimeField.pLength
    have := Nat.div_add_mod (bitLen p + 7) 8
    have := Nat.mod_lt (bitLen p + 7) (y := 8) (by norm_num)
    omega
  calc p < 2 ^ bitLen p := h1
  _ ≤ 2 ^ (8 * PrimeField.pLength p) := Nat.pow_le_pow_right (by norm_num) h2
  _ = 256 ^ PrimeField.pLength p := by
    rw [Nat.pow_mul]

theorem etob_length (p : Nat) (x : Int) :
    (PrimeField.etob p x).length = PrimeField.pLength p :=
  natToBE_length _ _

theorem btoe_etob (p : Nat) (x : Int) (hx : 0 ≤ x ∧ x < p) :
    PrimeField.btoe (PrimeField.etob p x) = x := by
  unfold PrimeField.btoe PrimeField.etob
  rw [natFromBE_natToBE]
  · exact Int.toNat_of_nonneg hx.1
  · have : x.toNat < p := by omega
    exact lt_of_lt_of_le this (le_of_lt (lt_pow256_pLength p))

/-- `PrimeField.sqrt` on a prime `p ≡ 7 (mod 8)` succeeds on any square and
returns one of its two canonical square roots (`x^((p+1)/4)`, accepted by
the `y² = x` check thanks to Fermat's little theorem). -/
theorem fpSqrt_of_square (p : Nat) (hp : Nat.Prime p) (h7 : p % 8 = 7) (x y : Int)
    (hx : 0 ≤ x ∧ x < p) (hy : 0 ≤ y ∧ y < p)
    (hxy : (x : ZMod p) = (y : ZMod p) * (y : ZMod p)) :
    ∃ q, PrimeField.sqrt p x = some q ∧ 0 ≤ q ∧ q < p ∧
      ((q : ZMod p) = (y : ZMod p) ∨ (q : ZMod p) = -(y : ZMod p)) := by
  haveI : Fact (Nat.Prime p) := ⟨hp⟩
  have hp0 : 0 < p := hp.pos
  have hp7 : 7 ≤ p := by omega
  have hu : PrimeField.sqrt p x = PrimeField.sqrt4u3 p (p / 8 * 2 + 1) x := by
    unfold PrimeField.sqrt
    rw [if_neg (by omega), if_neg (by omega), if_neg (by omega), if_pos h7]
  set e := p / 8 * 2 + 1 + 1 with he
  set Y := (y : ZMod p) with hYdef
  have hkey : (x : ZMod p) ^ (e + e) = Y * Y := by
    by_cases hY0 : Y = 0
    · rw [hxy, hY0, mul_zero, zero_pow (by omega)]
    · have hfer : Y ^ (p - 1) = 1 := ZMod.pow_card_sub_one_eq_one hY0
      calc (x : ZMod p) ^ (e + e) = (Y * Y) ^ (e + e) := by rw [hxy]
      _ = (Y ^ 2) ^ (e + e) := by rw [pow_two]
      _ = Y ^ (2 * (e + e)) := by rw [pow_mul]
      _ = Y ^ (p + 1) := by
        congr 1
        omega
      _ = Y ^ (p - 1) * Y ^ 2 := by
        rw [← pow_add]
        congr 1
        omega
      _ = Y * Y := by rw [hfer, one_mul, pow_two]
  have hqrange := inR_fpPow p hp0 x e
  have hccast : ((PrimeField.pow p x e * PrimeField.pow p x e % (p : Int) : Int) : ZMod p) =
      (x : ZMod p) := by
    rw [castInt_emod, Int.cast_mul, cast_fpPow, ← pow_add, hkey, ← hxy]
  have hcheck : PrimeField.pow p x e * PrimeField.pow p x e % (p : Int) = x :=
    canon_cast_inj p (inR_emod p hp0 _) hx hccast
  refine ⟨PrimeField.pow p x e, ?_, hqrange.1, hqrange.2, ?_⟩
  · rw [hu]
    unfold PrimeField.sqrt4u3
    rw [← he, if_pos hcheck]
  · refine mul_self_eq_mul_self_iff.mp ?_
    have : ((PrimeField.pow p x e : Int) : ZMod p) * ((PrimeField.pow p x e : Int) : ZMod p) =
        Y * Y := by
      rw [cast_fpPow, ← pow_add, hkey]
    exact this

/-- Claim C6: for every valid point `P` of the curve (infinity included) and
every `PC_MODE`, decoding inverts encoding:
`bytes_to_point(point_to_bytes(P, mode)) = P`.  The statement is generic in
the curve parameters, assuming what holds of the fixed SM2 curve: `p` is an
odd prime with `p % 8 = 7` (so `sqrt` is Shanks' `x^((p+1)/4)` branch).  For
the compressed forms the decoder recomputes `y` by the modular square root
and canonicalizes it by its least-significant bit, recovering the original
ordinate. -/
theorem point_bytes_roundtrip (p : Nat) (a b : Int) (hp : Nat.Prime p) (h7 : p % 8 = 7)
    (P : EcPoint) (hc : canonPoint p P) (ho : onCurve p a b P) (mode : PCMode) :
    bytesToPoint p a b (pointToBytes p P mode) = .ok P := by
  have hp0 : 0 < p := hp.pos
  have hp2n : p % 2 = 1 := by omega
  have hp2 : (p : Int) % 2 = 1 := by omega
  cases P with
  | inf => cases mode <;> rfl
  | aff x y =>
    obtain ⟨⟨hx0, hx1⟩, hy0c, hy1c⟩ := hc
    have ho' : PrimeField.mul p y y = EllipticCurve.getYSqr p a b x := ho
    have htake : (PrimeField.etob p x ++ PrimeField.etob p y).take (PrimeField.pLength p) =
        PrimeField.etob p x := List.take_left' (etob_length p x)
    have hdrop : (PrimeField.etob p x ++ PrimeField.etob p y).drop (PrimeField.pLength p) =
        PrimeField.etob p y := List.drop_left' (etob_length p x)
    have htake1 : (PrimeField.etob p x).take (PrimeField.pLength p) = PrimeField.etob p x :=
      List.take_of_length_le (le_of_eq (etob_length p x))
    cases mode with
    | raw =>
      simp only [pointToBytes, bytesToPoint]
      rw [if_neg (by decide), if_pos (by decide), htake, hdrop,
        btoe_etob p x ⟨hx0, hx1⟩, btoe_etob p y ⟨hy0c, hy1c⟩]
    | mixed =>
      by_cases hodd : y % 2 = 1
      · simp only [pointToBytes, bytesToPoint, if_pos hodd]
        rw [if_neg (by decide), if_pos (by decide), htake, hdrop,
          btoe_etob p x ⟨hx0, hx1⟩, btoe_etob p y ⟨hy0c, hy1c⟩]
      · simp only [pointToBytes, bytesToPoint, if_neg hodd]
        rw [if_neg (by decide), if_pos (by decide), htake, hdrop,
          btoe_etob p x ⟨hx0, hx1⟩, btoe_etob p y ⟨hy0c, hy1c⟩]
    | compress =>
      have hxs : inR p (EllipticCurve.getYSqr p a b x) := inR_emod p hp0 _
      have hxy : ((EllipticCurve.getYSqr p a b x : Int) : ZMod p) =
          (y : ZMod p) * (y : ZMod p) := by
        rw [← ho', cast_fpMul]
      obtain ⟨q, hq, hq0, hqp, hqor⟩ :=
        fpSqrt_of_square p hp h7 (EllipticCurve.getYSqr p a b x) y hxs ⟨hy0c, hy1c⟩ hxy
      have hqval : q = y ∨ (¬y = 0 ∧ q = (p : Int) - y) := by
        rcases hqor with hl | hr
        · exact Or.inl (canon_cast_inj p ⟨hq0, hqp⟩ ⟨hy0c, hy1c⟩ hl)
        · by_cases hy0 : y = 0
          · subst hy0
            left
            refine canon_cast_inj p ⟨hq0, hqp⟩ ⟨le_refl 0, by exact_mod_cast hp0⟩ ?_
            rw [hr]
            norm_num
          · right
            refine ⟨hy0, canon_cast_inj p ⟨hq0, hqp⟩ ⟨by omega, by omega⟩ ?_⟩
            rw [hr]
            push_cast
            simp
      have hnegq : ¬y = 0 → q = (p : Int) - y → PrimeField.neg p q = y := by
        intro hy0 hqpy
        refine canon_cast_inj p (inR_fpNeg p hp0 q) ⟨hy0c, hy1c⟩ ?_
        rw [cast_fpNeg, hqpy]
        push_cast
        simp
      by_cases hodd : y % 2 = 1
      · simp only [pointToBytes, bytesToPoint, if_pos hodd]
        rw [if_neg (by decide), if_neg (by decide), if_pos (by decide), htake1,
          btoe_etob p x ⟨hx0, hx1⟩]
        unfold EllipticCurve.getY
        rw [hq]
        dsimp only
        rcases hqval with hqy | ⟨hy0, hqpy⟩
        · subst hqy
          rw [if_neg (by simp [hodd])]
        · have hqe : ¬q % 2 = 1 := by omega
          rw [if_pos (by simp [hqe]), hnegq hy0 hqpy]
      · simp only [pointToBytes, bytesToPoint, if_neg hodd]
        rw [if_neg (by decide), if_neg (by decide), if_pos (by decide), htake1,
          btoe_etob p x ⟨hx0, hx1⟩]
        unfold EllipticCurve.getY
        rw [hq]
        dsimp only
        rcases hqval with hqy | ⟨hy0, hqpy⟩
        · subst hqy
          rw [if_neg (by simp [hodd])]
        · have hqe : q % 2 = 1 := by omega
          rw [if_pos (by simp [hqe]), hnegq hy0 hqpy]

/-- Claim C6, witness: the curve `y² = x³ + x + 1` over `F₂₃` (`23 % 8 = 7`
like the SM2 prime), point `(0, 1)`, compressed encoding. -/
theorem point_bytes_roundtrip_witness :
    bytesToPoint 23 1 1 (pointToBytes 23 (.aff 0 1) .compress) = .ok (.aff 0 1) :=
  point_bytes_roundtrip 23 1 1 (by norm_num) (by decide) (.aff 0 1) (by decide) (by decide)
    .compress

/-! Transfer lemmas between the embedded curve and `curveW`. -/

theorem cast_getYSqr (p : Nat) (a b x : Int) :
    ((EllipticCurve.getYSqr p a b x : Int) : ZMod p) =
      (x : ZMod p) ^ 3 + (a : ZMod p) * (x : ZMod p) + (b : ZMod p) := by
  unfold EllipticCurve.getYSqr
  rw [cast_fpAdd, cast_fpAdd, cast_fpPow, cast_fpMul]
  ring

theorem onCurve_iff_equation (p : Nat) (a b : Int) (hp : 0 < p) (x y : Int) :
    onCurve p a b (.aff x y) ↔ (curveW p a b).Equation (x : ZMod p) (y : ZMod p) := by
  rw [WeierstrassCurve.Affine.equation_iff]
  show PrimeField.mul p y y = EllipticCurve.getYSqr p a b x ↔ _
  simp only [curveW]
  constructor
  · intro h
    have hc := congrArg (fun z : Int => (z : ZMod p)) h
    simp only at hc
    rw [cast_fpMul, cast_getYSqr] at hc
    linear_combination hc
  · intro h
    refine canon_cast_inj p (inR_emod p hp _) (inR_emod p hp _) ?_
    rw [cast_fpMul, cast_getYSqr]
    linear_combination h

theorem curveW_negY (p : Nat) (a b : Int) (X Y : ZMod p) :
    (curveW p a b).negY X Y = -Y := by
  simp [WeierstrassCurve.Affine.negY, curveW]

theorem curveW_Δ (p : Nat) (a b : Int) :
    (curveW p a b).Δ = -16 * (4 * (a : ZMod p) ^ 3 + 27 * (b : ZMod p) ^ 2) := by
  simp only [WeierstrassCurve.Δ, WeierstrassCurve.b₂, WeierstrassCurve.b₄, WeierstrassCurve.b₆,
    WeierstrassCurve.b₈, curveW]
  ring

theorem curveW_Δ_ne_zero (p : Nat) (a b : Int) (hp : Nat.Prime p) (hp2 : p ≠ 2)
    (hΔ : ¬(4 * a ^ 3 + 27 * b ^ 2) % (p : Int) = 0) : (curveW p a b).Δ ≠ 0 := by
  haveI : Fact (Nat.Prime p) := ⟨hp⟩
  rw [curveW_Δ]
  refine mul_ne_zero ?_ ?_
  · have h16 : ((16 : Nat) : ZMod p) ≠ 0 := by
      rw [Ne, ZMod.natCast_zmod_eq_zero_iff_dvd]
      intro hdvd
      have hd2 : p ∣ 2 := hp.dvd_of_dvd_pow (show p ∣ 2 ^ 4 by norm_num at hdvd ⊢; exact hdvd)
      exact hp2 ((Nat.prime_dvd_prime_iff_eq hp Nat.prime_two).mp hd2)
    intro h0
    apply h16
    have h16' : ((16 : Nat) : ZMod p) = -(-16 : ZMod p) := by push_cast; ring
    rw [h16', h0, neg_zero]
  · intro h0
    apply hΔ
    have hcast : ((4 * a ^ 3 + 27 * b ^ 2 : Int) : ZMod p) = 0 := by
      push_cast
      exact h0
    rw [ZMod.intCast_zmod_eq_zero_iff_dvd] at hcast
    exact Int.emod_eq_zero_of_dvd hcast

theorem nonsingular_of_valid (p : Nat) (a b : Int) (hp : 0 < p)
    (hΔ : (curveW p a b).Δ ≠ 0) (x y : Int) (hv : ValidPt p a b (.aff x y)) :
    (curveW p a b).Nonsingular (x : ZMod p) (y : ZMod p) :=
  WeierstrassCurve.Affine.nonsingular_of_Δ_ne_zero (W := curveW p a b)
    ((onCurve_iff_equation p a b hp x y).mp hv.2) hΔ

theorem toWPt_aff (p : Nat) (a b : Int) (x y : Int)
    (h : (curveW p a b).Nonsingular (x : ZMod p) (y : ZMod p)) :
    toWPt p a b (.aff x y) = WeierstrassCurve.Affine.Point.some h := by
  simp only [toWPt]
  rw [dif_pos h]

theorem some_eq_some_of_coords (p : Nat) (a b : Int) {x1 y1 x2 y2 : ZMod p}
    (hx : x1 = x2) (hy : y1 = y2) (h1 : (curveW p a b).Nonsingular x1 y1)
    (h2 : (curveW p a b).Nonsingular x2 y2) :
    WeierstrassCurve.Affine.Point.some h1 = WeierstrassCurve.Affine.Point.some h2 := by
  subst hx
  subst hy
  rfl

theorem isoppo_iff (p : Nat) (hp : 0 < p) (y1 y2 : Int) (h1 : 0 ≤ y1 ∧ y1 < p)
    (h2 : 0 ≤ y2 ∧ y2 < p) :
    PrimeField.isoppo p y1 y2 = true ↔ (y1 : ZMod p) = -(y2 : ZMod p) := by
  unfold PrimeField.isoppo
  simp only [Bool.or_eq_true, Bool.and_eq_true, beq_iff_eq]
  constructor
  · rintro (⟨hz1, hz2⟩ | hs)
    · rw [hz1, hz2]
      norm_num
    · have h0 : (y1 : ZMod p) + (y2 : ZMod p) = 0 := by
        have hc : ((y1 + y2 : Int) : ZMod p) = (((p : Nat) : Int) : ZMod p) := by
          rw [hs]
        rw [Int.cast_natCast, ZMod.natCast_self] at hc
        push_cast at hc
        exact hc
      exact eq_neg_of_add_eq_zero_left h0
  · intro h
    have hsum : ((y1 + y2 : Int) : ZMod p) = 0 := by
      push_cast
      rw [h]
      ring
    rw [ZMod.intCast_zmod_eq_zero_iff_dvd] at hsum
    rcases hsum with ⟨c, hc⟩
    have hp' : (0 : Int) < p := by exact_mod_cast hp
    have hc0 : 0 ≤ c := by
      by_contra hcn
      push_neg at hcn
      have : (p : Int) * c < 0 := mul_neg_of_pos_of_neg hp' hcn
      omega
    have hc1 : c ≤ 1 := by
      by_contra hcn
      push_neg at hcn
      have h2c : (p : Int) * 2 ≤ (p : Int) * c :=
        mul_le_mul_of_nonneg_left (by omega) hp'.le
      omega
    interval_cases c
    · left
      constructor <;> omega
    · right
      omega

theorem curveW_addX (p : Nat) (a b : Int) (X1 X2 L : ZMod p) :
    (curveW p a b).addX X1 X2 L = L ^ 2 - X1 - X2 := by
  simp only [WeierstrassCurve.Affine.addX, curveW]
  ring

theorem curveW_addY (p : Nat) (a b : Int) (X1 X2 Y1 L : ZMod p) :
    (curveW p a b).addY X1 X2 Y1 L = L * (X1 - (L ^ 2 - X1 - X2)) - Y1 := by
  unfold WeierstrassCurve.Affine.addY WeierstrassCurve.Affine.negAddY
  rw [curveW_addX, curveW_negY]
  ring

/-- The common chord/tangent case of `EllipticCurve.add`: given the slope
`lam` computed by the code (whose cast agrees with Mathlib's `slope`), the
affine result `(λ² - x₁ - x₂, λ(x₁ - x₃) - y₁)` is valid and maps to the
Mathlib point sum. -/
theorem ecAdd_goodCase (p : Nat) (a b : Int) [hpf : Fact (Nat.Prime p)]
    (x1 y1 x2 y2 lam : Int)
    (hns1 : (curveW p a b).Nonsingular (x1 : ZMod p) (y1 : ZMod p))
    (hns2 : (curveW p a b).Nonsingular (x2 : ZMod p) (y2 : ZMod p))
    (hxy : (x1 : ZMod p) = (x2 : ZMod p) →
      (y1 : ZMod p) ≠ (curveW p a b).negY (x2 : ZMod p) (y2 : ZMod p))
    (hlam : (curveW p a b).slope (x1 : ZMod p) (x2 : ZMod p) (y1 : ZMod p) (y2 : ZMod p) =
      (lam : ZMod p)) :
    ValidPt p a b (.aff (PrimeField.sub p (PrimeField.mul p lam lam) (PrimeField.add p x1 x2))
      (PrimeField.sub p (PrimeField.mul p lam (PrimeField.sub p x1
        (PrimeField.sub p (PrimeField.mul p lam lam) (PrimeField.add p x1 x2)))) y1)) ∧
    toWPt p a b (.aff (PrimeField.sub p (PrimeField.mul p lam lam) (PrimeField.add p x1 x2))
      (PrimeField.sub p (PrimeField.mul p lam (PrimeField.sub p x1
        (PrimeField.sub p (PrimeField.mul p lam lam) (PrimeField.add p x1 x2)))) y1)) =
      WeierstrassCurve.Affine.Point.some hns1 + WeierstrassCurve.Affine.Point.some hns2 := by
  have hp0 : 0 < p := hpf.out.pos
  set x3 := PrimeField.sub p (PrimeField.mul p lam lam) (PrimeField.add p x1 x2) with hx3def
  set y3 := PrimeField.sub p (PrimeField.mul p lam (PrimeField.sub p x1 x3)) y1 with hy3def
  have hx3c : ((x3 : Int) : ZMod p) =
      (curveW p a b).addX (x1 : ZMod p) (x2 : ZMod p)
        ((curveW p a b).slope (x1 : ZMod p) (x2 : ZMod p) (y1 : ZMod p) (y2 : ZMod p)) := by
    rw [hlam, curveW_addX, hx3def, cast_fpSub, cast_fpMul, cast_fpAdd]
    ring
  have hy3c : ((y3 : Int) : ZMod p) =
      (curveW p a b).addY (x1 : ZMod p) (x2 : ZMod p) (y1 : ZMod p)
        ((curveW p a b).slope (x1 : ZMod p) (x2 : ZMod p) (y1 : ZMod p) (y2 : ZMod p)) := by
    rw [hlam, curveW_addY, hy3def, cast_fpSub, cast_fpMul, cast_fpSub, hx3c, hlam, curveW_addX]
  have hns3 := WeierstrassCurve.Affine.nonsingular_add hns1 hns2 hxy
  have hnsR : (curveW p a b).Nonsingular ((x3 : Int) : ZMod p) ((y3 : Int) : ZMod p) := by
    rw [hx3c, hy3c]
    exact hns3
  refine ⟨⟨⟨inR_emod p hp0 _, inR_emod p hp0 _⟩, ?_⟩, ?_⟩
  · exact (onCurve_iff_equation p a b hp0 x3 y3).mpr hnsR.1
  · rw [toWPt_aff p a b x3 y3 hnsR, WeierstrassCurve.Affine.Point.add_of_imp hxy]
    exact some_eq_some_of_coords p a b hx3c hy3c hnsR hns3

/-- Soundness of `EllipticCurve.add` on valid points: addition never hits
the `UnknownError` branch, preserves validity, and agrees with the Mathlib
group operation through `toWPt`. -/
theorem ecAdd_sound (p : Nat) (a b : Int) [hpf : Fact (Nat.Prime p)]
    (hΔ : (curveW p a b).Δ ≠ 0) (P Q : EcPoint)
    (hP : ValidPt p a b P) (hQ : ValidPt p a b Q) :
    ∃ R, EllipticCurve.add p a P Q = some R ∧ ValidPt p a b R ∧
      toWPt p a b R = toWPt p a b P + toWPt p a b Q := by
  have hp : Nat.Prime p := hpf.out
  have hp0 : 0 < p := hp.pos
  cases P with
  | inf =>
    refine ⟨Q, by cases Q <;> rfl, hQ, ?_⟩
    show toWPt p a b Q = 0 + toWPt p a b Q
    rw [zero_add]
  | aff x1 y1 =>
    cases Q with
    | inf =>
      refine ⟨.aff x1 y1, rfl, hP, ?_⟩
      show toWPt p a b (.aff x1 y1) = toWPt p a b (.aff x1 y1) + 0
      rw [add_zero]
    | aff x2 y2 =>
      obtain ⟨⟨hx1r, hy1r⟩, hoc1⟩ := hP
      obtain ⟨⟨hx2r, hy2r⟩, hoc2⟩ := hQ
      have hns1 := nonsingular_of_valid p a b hp0 hΔ x1 y1 ⟨⟨hx1r, hy1r⟩, hoc1⟩
      have hns2 := nonsingular_of_valid p a b hp0 hΔ x2 y2 ⟨⟨hx2r, hy2r⟩, hoc2⟩
      have ht1 := toWPt_aff p a b x1 y1 hns1
      have ht2 := toWPt_aff p a b x2 y2 hns2
      by_cases hx : x1 = x2
      · subst hx
        by_cases hopp : PrimeField.isoppo p y1 y2 = true
        · have hy12 : (y1 : ZMod p) = -(y2 : ZMod p) :=
            (isoppo_iff p hp0 y1 y2 hy1r hy2r).mp hopp
          refine ⟨.inf, ?_, ⟨trivial, trivial⟩, ?_⟩
          · simp only [EllipticCurve.add]
            rw [if_pos trivial, if_pos hopp]
          · rw [ht1, ht2]
            show (0 : (curveW p a b).Point) = _
            rw [WeierstrassCurve.Affine.Point.add_of_Y_eq rfl (by rw [curveW_negY]; exact hy12)]
        · have hYne : (y1 : ZMod p) ≠ (curveW p a b).negY (x1 : ZMod p) (y2 : ZMod p) := by
            rw [curveW_negY]
            exact fun hcon => hopp ((isoppo_iff p hp0 y1 y2 hy1r hy2r).mpr hcon)
          by_cases hyy : y1 = y2
          · subst hyy
            have h2y : ((PrimeField.smul p 2 y1 : Int) : ZMod p) = 2 * (y1 : ZMod p) := by
              rw [cast_fpSmul]
              norm_num
            have h2yne : ((PrimeField.smul p 2 y1 : Int) : ZMod p) ≠ 0 := by
              rw [h2y]
              intro hcon
              apply hYne
              rw [curveW_negY]
              have : (y1 : ZMod p) + (y1 : ZMod p) = 0 := by
                rw [two_mul] at hcon
                exact hcon
              linear_combination this
          
            have hlam : (curveW p a b).slope (x1 : ZMod p) (x1 : ZMod p) (y1 : ZMod p)
                (y1 : ZMod p) =
                ((PrimeField.mul p (PrimeField.add p a (PrimeField.smul p 3 (PrimeField.mul p x1 x1)))
                  (PrimeField.inv p (PrimeField.smul p 2 y1)) : Int) : ZMod p) := by
              rw [WeierstrassCurve.Affine.slope_of_Y_ne rfl hYne, curveW_negY]
              rw [cast_fpMul, cast_fpAdd, cast_fpSmul, cast_fpMul,
                cast_fpInv p hp _ (inR_fpSmul p hp0 2 y1), h2y]
              simp only [curveW]
              rw [div_eq_mul_inv]
              have hden : (y1 : ZMod p) - -(y1 : ZMod p) = 2 * (y1 : ZMod p) := by ring
              rw [hden]
              push_cast
              ring
            have hgc := ecAdd_goodCase p a b x1 y1 x1 y1 _ hns1 hns1 (fun _ => hYne) hlam
            refine ⟨_, ?_, hgc.1, by rw [ht1]; exact hgc.2⟩
            simp only [EllipticCurve.add]
            rw [if_pos trivial, if_neg hopp, if_pos trivial]
          · exfalso
            have hE1 := (onCurve_iff_equation p a b hp0 x1 y1).mp hoc1
            have hE2 := (onCurve_iff_equation p a b hp0 x1 y2).mp hoc2
            rcases WeierstrassCurve.Affine.Y_eq_of_X_eq hE1 hE2 rfl with heq | hne
            · exact hyy (canon_cast_inj p hy1r hy2r heq)
            · rw [curveW_negY] at hne
              exact hopp ((isoppo_iff p hp0 y1 y2 hy1r hy2r).mpr hne)
      · have hXne : (x1 : ZMod p) ≠ (x2 : ZMod p) :=
          fun hcon => hx (canon_cast_inj p hx1r hx2r hcon)
        have hsubne : ((PrimeField.sub p x2 x1 : Int) : ZMod p) ≠ 0 := by
          rw [cast_fpSub]
          intro hcon
          apply hXne
          linear_combination -hcon
        have hlam : (curveW p a b).slope (x1 : ZMod p) (x2 : ZMod p) (y1 : ZMod p)
            (y2 : ZMod p) =
            ((PrimeField.mul p (PrimeField.sub p y2 y1)
              (PrimeField.inv p (PrimeField.sub p x2 x1)) : Int) : ZMod p) := by
          rw [WeierstrassCurve.Affine.slope_of_X_ne hXne]
          rw [cast_fpMul, cast_fpSub, cast_fpInv p hp _ (inR_fpSub p hp0 x2 x1), cast_fpSub]
          have hflip : ((x1 : ZMod p) - (x2 : ZMod p)) = -((x2 : ZMod p) - (x1 : ZMod p)) := by
            ring
          rw [div_eq_mul_inv, hflip, inv_neg]
          ring
        have hxyimp : (x1 : ZMod p) = (x2 : ZMod p) →
            (y1 : ZMod p) ≠ (curveW p a b).negY (x2 : ZMod p) (y2 : ZMod p) :=
          fun hcon => absurd hcon hXne
        have hgc := ecAdd_goodCase p a b x1 y1 x2 y2 _ hns1 hns2 hxyimp hlam
        refine ⟨_, ?_, hgc.1, by rw [ht1, ht2]; exact hgc.2⟩
        simp only [EllipticCurve.add]
        rw [if_neg hx]

/-- Zero has no bits, at any fuel. -/
theorem bitsLSBAux_zero (fuel : Nat) : bitsLSBAux fuel 0 = [] := by
  cases fuel <;> rfl

/-- Reading the LSB-first bit list back (most significant last) recovers the
number. -/
theorem bitsLSBAux_foldr (fuel : Nat) : ∀ n, n ≤ fuel →
    (bitsLSBAux fuel n).foldr (fun i acc => 2 * acc + cond i 1 0) 0 = n := by
  induction fuel with
  | zero =>
    intro n hn
    have : n = 0 := Nat.le_zero.mp hn
    subst this
    rfl
  | succ fuel ih =>
    intro n hn
    by_cases h0 : n = 0
    · subst h0
      rfl
    · simp only [bitsLSBAux, if_neg h0, List.foldr_cons]
      rw [ih (n / 2) (by omega)]
      rcases Nat.mod_two_eq_zero_or_one n with h2 | h2
      · have hd : decide (n % 2 = 1) = false := by simp [h2]
        rw [hd]
        show 2 * (n / 2) + 0 = n
        omega
      · have hd : decide (n % 2 = 1) = true := by simp [h2]
        rw [hd]
        show 2 * (n / 2) + 1 = n
        omega

/-- A positive number's top bit is set: the last element of the LSB-first bit
list is `true`. -/
theorem bitsLSBAux_getLast (fuel : Nat) : ∀ n, 0 < n → n ≤ fuel →
    (bitsLSBAux fuel n).getLast? = some true := by
  induction fuel with
  | zero =>
    intro n h0 h1
    omega
  | succ fuel ih =>
    intro n h0 h1
    simp only [bitsLSBAux, if_neg (by omega : ¬n = 0)]
    by_cases hhalf : n / 2 = 0
    · have hn1 : n = 1 := by omega
      subst hn1
      rw [show (1 : Nat) / 2 = 0 from rfl, bitsLSBAux_zero]
      rfl
    · have htail := ih (n / 2) (by omega) (by omega)
      cases hl : bitsLSBAux fuel (n / 2) with
      | nil =>
        rw [hl] at htail
        simp at htail
      | cons c rest =>
        rw [hl] at htail
        rw [List.getLast?_cons_cons]
        exact htail

/-- `f"{k:b}"[1:]` folded MSB-first from the accumulator `1` (the leading bit
of a positive `k`) yields `k`. -/
theorem mulBits_val (n : Nat) (hn : 0 < n) :
    (mulBits n).foldl (fun acc i => 2 * acc + cond i 1 0) 1 = n := by
  have hfull : (bitsLSB n).reverse.foldl (fun acc i => 2 * acc + cond i 1 0) 0 = n := by
    rw [List.foldl_reverse]
    exact bitsLSBAux_foldr n n le_rfl
  have hlast : (bitsLSB n).getLast? = some true := bitsLSBAux_getLast n n hn le_rfl
  have hhead : (bitsLSB n).reverse.head? = some true := by
    rw [List.head?_reverse]
    exact hlast
  cases hr : (bitsLSB n).reverse with
  | nil =>
    rw [hr] at hhead
    simp at hhead
  | cons hd tl =>
    rw [hr] at hhead
    have hhd : hd = true := by
      simpa using hhead
    subst hhd
    rw [hr, List.foldl_cons] at hfull
    have hmb : mulBits n = tl := by
      unfold mulBits msbBitsFull
      rw [if_neg (by omega : ¬n = 0), hr]
      rfl
    rw [hmb]
    simpa using hfull

/-- Soundness of the double-and-add loop body: starting from a valid
accumulator representing `m • P`, it never fails, stays valid, and computes
the binary-weighted multiple. -/
theorem mulLoop_sound (p : Nat) (a b : Int) [hpf : Fact (Nat.Prime p)]
    (hΔ : (curveW p a b).Δ ≠ 0) (P : EcPoint) (hP : ValidPt p a b P)
    (bs : List Bool) : ∀ (m : Nat) (Q : EcPoint), ValidPt p a b Q →
    toWPt p a b Q = m • toWPt p a b P →
    ∃ R, EllipticCurve.mulLoop p a P bs Q = some R ∧ ValidPt p a b R ∧
      toWPt p a b R = (bs.foldl (fun acc i => 2 * acc + cond i 1 0) m) • toWPt p a b P := by
  induction bs with
  | nil =>
    intro m Q hQ hQw
    exact ⟨Q, rfl, hQ, by simpa using hQw⟩
  | cons i bs ih =>
    intro m Q hQ hQw
    obtain ⟨Q2, hQ2eq, hQ2v, hQ2w⟩ := ecAdd_sound p a b hΔ Q Q hQ hQ
    have hQ2w' : toWPt p a b Q2 = (2 * m) • toWPt p a b P := by
      rw [hQ2w, hQw, two_mul, add_nsmul]
    cases i with
    | false =>
      obtain ⟨R, hR, hRv, hRw⟩ := ih (2 * m) Q2 hQ2v hQ2w'
      refine ⟨R, ?_, hRv, ?_⟩
      · simp only [EllipticCurve.mulLoop, hQ2eq, Option.bind_eq_bind, Option.some_bind,
          if_false, Bool.false_eq_true]
        exact hR
      · rw [hRw]
        simp
    | true =>
      obtain ⟨Q3, hQ3eq, hQ3v, hQ3w⟩ := ecAdd_sound p a b hΔ Q2 P hQ2v hP
      have hQ3w' : toWPt p a b Q3 = (2 * m + 1) • toWPt p a b P := by
        rw [hQ3w, hQ2w', add_nsmul, one_nsmul]
      obtain ⟨R, hR, hRv, hRw⟩ := ih (2 * m + 1) Q3 hQ3v hQ3w'
      refine ⟨R, ?_, hRv, ?_⟩
      · simp only [EllipticCurve.mulLoop, hQ2eq, hQ3eq, Option.bind_eq_bind, Option.some_bind,
          if_true]
        exact hR
      · rw [hRw]
        simp

/-- Soundness of `EllipticCurve.mul` for positive scalars on valid points:
it succeeds and agrees with the Mathlib group multiple through `toWPt`. -/
theorem ecMul_sound (p : Nat) (a b : Int) [hpf : Fact (Nat.Prime p)]
    (hΔ : (curveW p a b).Δ ≠ 0) (P : EcPoint) (hP : ValidPt p a b P)
    (k : Nat) (hk : 0 < k) :
    ∃ R, EllipticCurve.mul p a k P = some R ∧ ValidPt p a b R ∧
      toWPt p a b R = k • toWPt p a b P := by
  obtain ⟨R, hR, hRv, hRw⟩ := mulLoop_sound p a b hΔ P hP (mulBits k) 1 P hP
    (by rw [one_nsmul])
  exact ⟨R, hR, hRv, by rw [hRw, mulBits_val k hk]⟩

/-- `toWPt` is injective on valid points: canonical coordinates make the
interpretation faithful. -/
theorem toWPt_inj (p : Nat) (a b : Int) (hp : 0 < p) (hΔ : (curveW p a b).Δ ≠ 0)
    (P Q : EcPoint) (hP : ValidPt p a b P) (hQ : ValidPt p a b Q)
    (h : toWPt p a b P = toWPt p a b Q) : P = Q := by
  cases P with
  | inf =>
    cases Q with
    | inf => rfl
    | aff x2 y2 =>
      exfalso
      have hns2 := nonsingular_of_valid p a b hp hΔ x2 y2 hQ
      rw [toWPt_aff p a b x2 y2 hns2] at h
      exact WeierstrassCurve.Affine.Point.some_ne_zero hns2 h.symm
  | aff x1 y1 =>
    cases Q with
    | inf =>
      exfalso
      have hns1 := nonsingular_of_valid p a b hp hΔ x1 y1 hP
      rw [toWPt_aff p a b x1 y1 hns1] at h
      exact WeierstrassCurve.Affine.Point.some_ne_zero hns1 h
    | aff x2 y2 =>
      have hns1 := nonsingular_of_valid p a b hp hΔ x1 y1 hP
      have hns2 := nonsingular_of_valid p a b hp hΔ x2 y2 hQ
      rw [toWPt_aff p a b x1 y1 hns1, toWPt_aff p a b x2 y2 hns2] at h
      injection h with hx hy
      have hx' : x1 = x2 := canon_cast_inj p hP.1.1 hQ.1.1 hx
      have hy' : y1 = y2 := canon_cast_inj p hP.1.2 hQ.1.2 hy
      rw [hx', hy']

/-- If `n * G` reaches infinity and `n` is prime, the interpreted base point
has additive order exactly `n`. -/
theorem kG_addOrder (p : Nat) (a b : Int) [hpf : Fact (Nat.Prime p)]
    (hΔ : (curveW p a b).Δ ≠ 0) (G : EcPoint) (hG : ValidPt p a b G)
    (hGne : G ≠ .inf) (n : Nat) (hn : Nat.Prime n)
    (hord : EllipticCurve.mul p a n G = some .inf) :
    addOrderOf (toWPt p a b G) = n := by
  obtain ⟨R, hR, _, hRw⟩ := ecMul_sound p a b hΔ G hG n hn.pos
  rw [hord] at hR
  injection hR with hR
  have hzero : n • toWPt p a b G = 0 := by
    rw [← hRw, ← hR]
    rfl
  have hdvd : addOrderOf (toWPt p a b G) ∣ n := addOrderOf_dvd_of_nsmul_eq_zero hzero
  rcases (Nat.Prime.eq_one_or_self_of_dvd hn _ hdvd) with h1 | hself
  · exfalso
    have hG0 : toWPt p a b G = 0 := AddMonoid.addOrderOf_eq_one_iff.mp h1
    cases G with
    | inf => exact hGne rfl
    | aff x y =>
      have hns := nonsingular_of_valid p a b hpf.out.pos hΔ x y hG
      rw [toWPt_aff p a b x y hns] at hG0
      exact WeierstrassCurve.Affine.Point.some_ne_zero hns hG0
  · exact hself

/-- A multiple `m • G` with `n ∤ m` is not the identity when `G` has order
`n`. -/
theorem nsmul_ne_zero_of_not_dvd (p : Nat) (a b : Int) [hpf : Fact (Nat.Prime p)]
    (G : EcPoint) (n : Nat) (hord : addOrderOf (toWPt p a b G) = n)
    (m : Nat) (hm : ¬n ∣ m) : m • toWPt p a b G ≠ 0 := by
  intro h0
  apply hm
  rw [← hord]
  exact addOrderOf_dvd_of_nsmul_eq_zero h0

/-- Length of the concatenating fold inside the KDF. -/
theorem kdf_foldl_length (H : List Nat → List Nat) (v : Nat)
    (hH : ∀ z, (H z).length = v) (Z : List Nat) (l : List Nat) :
    ∀ init : List Nat,
    (l.foldl (fun K ct => K ++ H (Z ++ natToBE 4 (ct + 1))) init).length =
      init.length + l.length * v := by
  induction l with
  | nil =>
    intro init
    simp
  | cons c l ih =>
    intro init
    rw [List.foldl_cons, ih]
    simp only [List.length_append, hH, List.length_cons]
    ring

/-- A successful KDF derivation returns exactly the requested number of
bytes. -/
theorem kdf_length (H : List Nat → List Nat) (v : Nat) (hv : 0 < v)
    (hH : ∀ z, (H z).length = v) (Z : List Nat) (klen : Nat) (t : List Nat)
    (h : kdf H v Z klen = .ok t) : t.length = klen := by
  have hdm : klen / v * v + klen % v = klen := by
    rw [Nat.mul_comm]
    exact Nat.div_add_mod klen v
  simp only [kdf] at h
  split at h
  · split at h
    · exact absurd h (by simp)
    · injection h with h
      subst h
      rw [List.length_append, kdf_foldl_length H v hH Z _ []]
      simp only [List.length_nil, List.length_range, Nat.zero_add, List.length_take, hH]
      have hlt : klen % v < v := Nat.mod_lt klen hv
      rw [Nat.min_eq_left (Nat.le_of_lt hlt)]
      exact hdm
  · split at h
    · exact absurd h (by simp)
    · injection h with h
      subst h
      rw [List.length_append, kdf_foldl_length H v hH Z _ []]
      simp only [List.length_nil, List.length_range, Nat.zero_add, List.length_append]
      have hmod : klen % v = 0 := by omega
      rw [hmod] at hdm
      simpa using hdm

/-- XOR-ing twice with the same (sufficiently long) stream is the
identity. -/
theorem xorBytes_cancel : ∀ (x t : List Nat), x.length ≤ t.length →
    xorBytes (xorBytes x t) t = x := by
  intro x
  induction x with
  | nil =>
    intro t h
    rfl
  | cons c x ih =>
    intro t h
    cases t with
    | nil => simp at h
    | cons d t =>
      simp only [xorBytes, List.zipWith_cons_cons]
      rw [Nat.xor_cancel_right]
      have := ih t (by simpa using h)
      simp only [xorBytes] at this
      rw [this]

/-- The XOR of two byte strings is as long as the shorter one. -/
theorem xorBytes_length (x t : List Nat) :
    (xorBytes x t).length = min x.length t.length := by
  simp [xorBytes]

/-- A valid affine point passes `EllipticCurve.isvalid`. -/
theorem isvalid_of_valid (p : Nat) (a b : Int) (x y : Int)
    (h : ValidPt p a b (.aff x y)) :
    EllipticCurve.isvalid p a b (.aff x y) = true := by
  simp only [EllipticCurve.isvalid, beq_iff_eq]
  exact h.2

/-- Multiplying by the scalar `1` returns the point unchanged: the bit
string `f"{1:b}"[1:]` is empty. -/
theorem ecMul_one (p : Nat) (a : Int) (P : EcPoint) :
    EllipticCurve.mul p a 1 P = some P :=
  rfl

/-- `bind` on a successful `Except` computation applies the continuation. -/
theorem exceptBind_ok {e a B : Type} (x : a) (f : a → Except e B) :
    (Except.ok x >>= f) = f x :=
  rfl

/-- `bind` on a failed `Except` computation propagates the error. -/
theorem exceptBind_err {e a B : Type} (err : e) (f : a → Except e B) :
    ((Except.error err : Except e a) >>= f) = Except.error err :=
  rfl

/-- Inversion of a successful `SM2Core.encrypt`: it went through the success
branch with some accepted draw `k`, recording the shared point, the key
stream, and the exact shapes of the three ciphertext components. -/
theorem encryptLoop_inv (p : Nat) (a : Int) (G : EcPoint) (n h : Nat)
    (H : List Nat → List Nat) (v : Nat) (plain : List Nat) (pk : EcPoint) :
    ∀ (draws : List Nat) (c1 : EcPoint) (c2 c3 : List Nat),
    SM2Core.encryptLoop p a G n h H v plain pk draws = .ok (c1, c2, c3) →
    ∃ k x2 y2 t, 1 ≤ k ∧ k ≤ n - 1 ∧
      EllipticCurve.mul p a k G = some c1 ∧
      EllipticCurve.mul p a k pk = some (.aff x2 y2) ∧
      kdf H v (PrimeField.etob p x2 ++ PrimeField.etob p y2) plain.length = .ok t ∧
      anyByte t = true ∧
      c2 = xorBytes plain t ∧
      c3 = H (PrimeField.etob p x2 ++ plain ++ PrimeField.etob p y2) := by
  intro draws
  induction draws with
  | nil =>
    intro c1 c2 c3 hcontra
    exact absurd hcontra (by simp [SM2Core.encryptLoop])
  | cons k draws ih =>
    intro c1 c2 c3 henc
    simp only [SM2Core.encryptLoop] at henc
    split at henc
    · exact ih c1 c2 c3 henc
    next hrange =>
      split at henc
      · exact absurd henc (by simp)
      next C1 hkG =>
        split at henc
        · exact absurd henc (by simp)
        next hpk1 hmulh =>
          split at henc
          · exact absurd henc (by simp)
          next hpkinf =>
            split at henc
            · exact absurd henc (by simp)
            · exact absurd henc (by simp)
            next x2 y2 hmulk =>
              cases hkdf : kdf H v (PrimeField.etob p x2 ++ PrimeField.etob p y2)
                  plain.length with
              | error e =>
                rw [hkdf, exceptBind_err] at henc
                exact Except.noConfusion henc
              | ok t =>
                rw [hkdf, exceptBind_ok] at henc
                split at henc
                next hany =>
                  injection henc with henc
                  injection henc with h1 hrest
                  injection hrest with h2 h3
                  refine ⟨k, x2, y2, t, by omega, by omega, ?_, hmulk, hkdf, hany, h2.symm,
                    h3.symm⟩
                  rw [← h1]
                  exact hkG
                · exact ih c1 c2 c3 henc

/-- Claim C1: for every secret key `sk ∈ [1, n-1]` with `pk = sk·G` on a
short Weierstrass curve of prime order `n` (cofactor 1, as for sm2p256v1)
and nonzero discriminant, and every byte string `plain`, if
`SM2Core.encrypt` returns `(C1, C2, C3)` (its RNG draws yielding an accepted
`k` and a non-zero key stream), then `SM2Core.decrypt (C1, C2, C3, sk)`
returns `plain` without an error. -/
theorem sm2_encrypt_decrypt_roundtrip (p : Nat) (a b : Int) [hpf : Fact (Nat.Prime p)]
    (hΔ : (curveW p a b).Δ ≠ 0) (G : EcPoint) (hG : ValidPt p a b G) (hGne : G ≠ .inf)
    (n : Nat) (hn : Nat.Prime n) (hord : EllipticCurve.mul p a n G = some .inf)
    (H : List Nat → List Nat) (v : Nat) (hv : 0 < v) (hH : ∀ z, (H z).length = v)
    (sk : Nat) (hsk1 : 1 ≤ sk) (hskn : sk ≤ n - 1)
    (pk : EcPoint) (hpk : EllipticCurve.mul p a sk G = some pk)
    (plain draws : List Nat) (c1 : EcPoint) (c2 c3 : List Nat)
    (henc : SM2Core.encrypt p a G n 1 H v plain pk draws = .ok (c1, c2, c3)) :
    SM2Core.decrypt p a b 1 H v c1 c2 c3 sk = .ok plain := by
  have hp0 : 0 < p := hpf.out.pos
  have hn2 : 2 ≤ n := hn.two_le
  obtain ⟨k, x2, y2, t, hk1, hkn, hkG, hkpk, hkdf, hany, hc2, hc3⟩ :=
    encryptLoop_inv p a G n 1 H v plain pk draws c1 c2 c3 henc
  obtain ⟨R1, hR1, hR1v, hR1w⟩ := ecMul_sound p a b hΔ G hG k (by omega)
  rw [hkG] at hR1
  injection hR1 with hR1
  subst hR1
  obtain ⟨Rpk, hRpk, hRpkv, hRpkw⟩ := ecMul_sound p a b hΔ G hG sk (by omega)
  rw [hpk] at hRpk
  injection hRpk with hRpk
  subst hRpk
  have hordn := kG_addOrder p a b hΔ G hG hGne n hn hord
  have hkndvd : ¬n ∣ k := by
    intro hdvd
    have := Nat.le_of_dvd (by omega) hdvd
    omega
  have hc1ne0 : toWPt p a b c1 ≠ 0 := by
    rw [hR1w]
    exact nsmul_ne_zero_of_not_dvd p a b G n hordn k hkndvd
  have hc1ne : c1 ≠ .inf := by
    intro hcon
    apply hc1ne0
    rw [hcon]
    rfl
  obtain ⟨x1, y1, hc1aff⟩ : ∃ x1 y1, c1 = .aff x1 y1 := by
    cases c1 with
    | inf => exact absurd rfl hc1ne
    | aff x1 y1 => exact ⟨x1, y1, rfl⟩
  subst hc1aff
  obtain ⟨R3, hR3, hR3v, hR3w⟩ := ecMul_sound p a b hΔ pk hRpkv k (by omega)
  rw [hkpk] at hR3
  injection hR3 with hR3
  subst hR3
  obtain ⟨R2, hR2, hR2v, hR2w⟩ := ecMul_sound p a b hΔ (.aff x1 y1) hR1v sk (by omega)
  have hR2w' : toWPt p a b R2 = toWPt p a b (.aff x2 y2) := by
    rw [hR2w, hR1w, hR3w, hRpkw, smul_smul, smul_smul, Nat.mul_comm]
  have hR2eq : R2 = .aff x2 y2 :=
    toWPt_inj p a b hp0 hΔ R2 (.aff x2 y2) hR2v hR3v hR2w'
  have htlen : t.length = plain.length := kdf_length H v hv hH _ _ t hkdf
  have hc2len : c2.length = plain.length := by
    rw [hc2, xorBytes_length, htlen, Nat.min_self]
  have hM : xorBytes c2 t = plain := by
    rw [hc2]
    exact xorBytes_cancel plain t (by omega)
  simp [SM2Core.decrypt, isvalid_of_valid p a b x1 y1 hR1v, ecMul_one, hR2, hR2eq,
    hc2len, hkdf, exceptBind_ok, hany, hM, hc3]

/-- Claim C1, witness: on the curve `y² = x³ + x + 6` over `F₁₁` with base
point `G = (2, 7)` of prime order `13`, secret key `sk = 2`,
`pk = 2·G = (5, 2)`, a constant 32-byte hash, plaintext `[5]` and the single
RNG draw `k = 2`, encryption succeeds and decryption recovers the
plaintext. -/
theorem sm2_encrypt_decrypt_roundtrip_witness :
    SM2Core.encrypt 11 1 (.aff 2 7) 13 1 (fun _ => List.replicate 32 1) 32 [5]
      (.aff 5 2) [2] = .ok (.aff 5 2, [4], List.replicate 32 1) ∧
    SM2Core.decrypt 11 1 6 1 (fun _ => List.replicate 32 1) 32 (.aff 5 2) [4]
      (List.replicate 32 1) 2 = .ok [5] := by
  have henc : SM2Core.encrypt 11 1 (.aff 2 7) 13 1 (fun _ => List.replicate 32 1) 32 [5]
      (.aff 5 2) [2] = .ok (.aff 5 2, [4], List.replicate 32 1) := by
    decide
  refine ⟨henc, ?_⟩
  exact @sm2_encrypt_decrypt_roundtrip 11 1 6 ⟨by norm_num⟩
    (curveW_Δ_ne_zero 11 1 6 (by norm_num) (by norm_num) (by decide))
    (.aff 2 7) (by decide) (by decide) 13 (by norm_num) (by decide)
    (fun _ => List.replicate 32 1) 32 (by norm_num) (fun _ => by simp)
    2 (by norm_num) (by norm_num) (.aff 5 2) (by decide) [5] [2]
    (.aff 5 2) [4] (List.replicate 32 1) henc
